import Mathlib

/-!
Verification of the rational sort of `src/src/sort/rational.rs`.

The Rust code works over `num::rational::Rational64` (`Ratio<i64>`): an exact
fraction of two 64-bit signed integers kept in reduced form (denominator
strictly positive, numerator and denominator coprime).  We shallowly embed it
as a structure over `Int` together with an explicit well-formedness predicate
carrying the representation invariants (reduction and the i64 range).

Rust `i64` division truncates toward zero, which is Lean's `Int.tdiv` /
`Int.tmod`; arithmetic overflow of an intermediate `i64` computation is a
panic in a checked build (and undefined wrapping otherwise), which we model by
`Option`: `none` stands for "no result", whether from a checked operation
signalling overflow or from an unchecked operation overflowing.

The operations delegated to the `num` crates (`num-rational` 0.4,
`num-integer`, `num-traits`) are translated from those crates' published
sources; each definition notes the function it embeds.
-/

namespace EgglogRat

/-! ## The i64 machine-integer model -/

/-- Smallest `i64` value, `-2^63`. -/
def i64Min : Int := -(2 ^ 63)

/-- Largest `i64` value, `2^63 - 1`. -/
def i64Max : Int := 2 ^ 63 - 1

/-- `n` is representable as an `i64`. -/
def fitsI64 (n : Int) : Prop := i64Min ≤ n ∧ n ≤ i64Max

instance (n : Int) : Decidable (fitsI64 n) := by unfold fitsI64; infer_instance

/-- An `i64` arithmetic step: the mathematical result if it fits the width,
otherwise `none` (overflow: a panic in a checked Rust build). -/
def checkedI64 (n : Int) : Option Int := if fitsI64 n then some n else none

/-! ## `Rational64` -/

/-- `num::rational::Rational64`: a numerator/denominator pair of `i64`s. -/
structure R where
  numer : Int
  denom : Int
deriving DecidableEq, Repr

/-- The representation invariant of `Ratio<i64>` values built by the library:
positive denominator, reduced fraction, both components in `i64` range. -/
def R.wf (a : R) : Prop :=
  0 < a.denom ∧ Int.gcd a.numer a.denom = 1 ∧ fitsI64 a.numer ∧ fitsI64 a.denom

instance (a : R) : Decidable a.wf := by unfold R.wf; infer_instance

/-- The rational number denoted by a pair. -/
def R.val (a : R) : ℚ := (a.numer : ℚ) / (a.denom : ℚ)

/-- `Ratio::zero()`, i.e. `0/1`. -/
def R.zero : R := ⟨0, 1⟩

/-- `Ratio::one()`, i.e. `1/1`. -/
def R.one : R := ⟨1, 1⟩

/-- `Ratio::is_zero`: the numerator is zero. -/
def R.isZero (a : R) : Prop := a.numer = 0

instance (a : R) : Decidable a.isZero := by unfold R.isZero; infer_instance

/-- `Signed::is_positive` for `Ratio<i64>`: numerator and denominator have the
same (nonzero) sign; for library values the denominator is positive, so this
is `0 < numer`.  (num-rational: `(numer.is_positive() && denom.is_positive())
|| (numer.is_negative() && denom.is_negative())`.) -/
def R.isPositive (a : R) : Prop :=
  (0 < a.numer ∧ 0 < a.denom) ∨ (a.numer < 0 ∧ a.denom < 0)

instance (a : R) : Decidable a.isPositive := by unfold R.isPositive; infer_instance

/-- The order on `Ratio<i64>` (its `Ord` instance computes the numeric order
of the fractions, by a division-and-remainder descent that never overflows).
For positive denominators it is cross multiplication. -/
def R.lt (a b : R) : Prop := a.numer * b.denom < b.numer * a.denom

instance (a b : R) : Decidable (a.lt b) := by unfold R.lt; infer_instance

/-- Non-strict order, `a <= b` on `Ratio<i64>`. -/
def R.le (a b : R) : Prop := a.numer * b.denom ≤ b.numer * a.denom

instance (a b : R) : Decidable (a.le b) := by unfold R.le; infer_instance

/-- `Ratio::new(numer, denom)` (for `denom ≠ 0`): store the pair and `reduce`
it — special-case a zero numerator, otherwise divide both components by their
gcd and flip both signs if the denominator came out negative.  Reduction only
divides (and possibly negates a value whose magnitude already shrank), so it
has no overflow of its own on the paths reachable here. -/
def Ratio.new (n d : Int) : R :=
  if n = 0 then ⟨0, 1⟩
  else
    let g : Int := Int.gcd n d
    let n' := n.tdiv g
    let d' := d.tdiv g
    if d' < 0 then ⟨-n', -d'⟩ else ⟨n', d'⟩

/-- `Ratio::from_integer` / `Ratio::new_raw(t, 1)`. -/
def Ratio.fromInteger (t : Int) : R := ⟨t, 1⟩

/-- `Ratio::trunc`: `from_integer(numer / denom)` with truncating division. -/
def R.trunc (a : R) : R := Ratio.fromInteger (a.numer.tdiv a.denom)

/-! ## Arithmetic primitives

Each definition embeds the `num` implementation the Rust operator resolves to.
Every primitive `i64` addition/subtraction/multiplication/negation step goes
through `checkedI64`: a checked step returning `None` and an unchecked step
panicking on overflow both surface here as `none`. -/

/-- `Signed::is_negative` for `Ratio<i64>`. -/
def R.isNegative (a : R) : Prop :=
  (a.numer < 0 ∧ 0 < a.denom) ∨ (0 < a.numer ∧ a.denom < 0)

instance (a : R) : Decidable a.isNegative := by unfold R.isNegative; infer_instance

/-- `CheckedAdd for Ratio<i64>` (num-rational `checked_arith_impl`):
`lcm = (self.denom / gcd) * rhs.denom`, rescale both numerators to `lcm`, add,
each step checked, then `Ratio::new` reduces. -/
def R.checked_add (a b : R) : Option R := do
  let g : Int := Int.gcd a.denom b.denom
  let lcm ← checkedI64 ((a.denom.tdiv g) * b.denom)
  let lhsN ← checkedI64 ((lcm.tdiv a.denom) * a.numer)
  let rhsN ← checkedI64 ((lcm.tdiv b.denom) * b.numer)
  let n ← checkedI64 (lhsN + rhsN)
  some (Ratio.new n lcm)

/-- `CheckedSub for Ratio<i64>`: same as `checked_add` with the final
numerator subtraction. -/
def R.checked_sub (a b : R) : Option R := do
  let g : Int := Int.gcd a.denom b.denom
  let lcm ← checkedI64 ((a.denom.tdiv g) * b.denom)
  let lhsN ← checkedI64 ((lcm.tdiv a.denom) * a.numer)
  let rhsN ← checkedI64 ((lcm.tdiv b.denom) * b.numer)
  let n ← checkedI64 (lhsN - rhsN)
  some (Ratio.new n lcm)

/-- `CheckedMul for Ratio<i64>`: cross-cancel by `gcd(a.numer, b.denom)` and
`gcd(a.denom, b.numer)`, multiply checked, result is already reduced
(`Ratio::new_raw`). -/
def R.checked_mul (a b : R) : Option R := do
  let gad : Int := Int.gcd a.numer b.denom
  let gbc : Int := Int.gcd a.denom b.numer
  let n ← checkedI64 ((a.numer.tdiv gad) * (b.numer.tdiv gbc))
  let d ← checkedI64 ((a.denom.tdiv gbc) * (b.denom.tdiv gad))
  some ⟨n, d⟩

/-- `CheckedDiv for Ratio<i64>`: `None` on a zero divisor; otherwise invert
and cross-cancel (with fast paths for equal denominators / equal numerators),
then a manual reduction that keeps the denominator positive, negating through
a checked multiplication by `-1`. -/
def R.checked_div (a b : R) : Option R :=
  if b.isZero then none
  else do
    let nd ←
      if a.denom = b.denom then some (a.numer, b.numer)
      else if a.numer = b.numer then some (b.denom, a.denom)
      else do
        let gac : Int := Int.gcd a.numer b.numer
        let gbd : Int := Int.gcd a.denom b.denom
        let n ← checkedI64 ((a.numer.tdiv gac) * (b.denom.tdiv gbd))
        let d ← checkedI64 ((a.denom.tdiv gbd) * (b.numer.tdiv gac))
        some (n, d)
    let n := nd.1
    let d := nd.2
    if d = 0 then none
    else if n = 0 then some R.zero
    else if n = d then some R.one
    else
      let g : Int := Int.gcd n d
      let n' := n.tdiv g
      let d' := d.tdiv g
      if d' < 0 then do
        let nn ← checkedI64 (-n')
        let dd ← checkedI64 (-d')
        some (⟨nn, dd⟩ : R)
      else some (⟨n', d'⟩ : R)

/-- `Ord::min` (std): returns the first argument on equality. -/
def R.minR (a b : R) : R := if R.lt b a then b else a

/-- `Ord::max` (std): returns the second argument on equality. -/
def R.maxR (a b : R) : R := if R.lt b a then a else b

/-- `Neg for Ratio<i64>`: `new_raw(-numer, denom)`; the `i64` negation
overflows at `i64::MIN`. -/
def R.neg (a : R) : Option R := do
  let n ← checkedI64 (-a.numer)
  some (⟨n, a.denom⟩ : R)

/-- `Signed::abs for Ratio<i64>`: negate if negative, else return unchanged. -/
def R.abs (a : R) : Option R := if a.isNegative then a.neg else some a

/-- `Ratio::floor`: for negative values `(numer - denom + 1) / denom`
(truncating division), else `numer / denom`; the numerator adjustment is two
unchecked `i64` steps. -/
def R.floor (a : R) : Option R :=
  if R.lt a R.zero then do
    let t1 ← checkedI64 (a.numer - a.denom)
    let t ← checkedI64 (t1 + 1)
    some (Ratio.fromInteger (t.tdiv a.denom))
  else some (Ratio.fromInteger (a.numer.tdiv a.denom))

/-- `Ratio::ceil`: for negative values `numer / denom` (truncating division),
else `(numer + denom - 1) / denom`. -/
def R.ceil (a : R) : Option R :=
  if R.lt a R.zero then some (Ratio.fromInteger (a.numer.tdiv a.denom))
  else do
    let t1 ← checkedI64 (a.numer + a.denom)
    let t ← checkedI64 (t1 - 1)
    some (Ratio.fromInteger (t.tdiv a.denom))

/-- `Ratio::fract`: `new_raw(numer % denom, denom)` (truncating remainder). -/
def R.fract (a : R) : R := ⟨a.numer.tmod a.denom, a.denom⟩

/-- `num-integer` `lcm` for `i64`: `(a * (b / gcd)).abs()`, the multiplication
and the absolute value each an overflowable `i64` step. -/
def lcmI64 (a b : Int) : Option Int := do
  let g : Int := Int.gcd a b
  let p ← checkedI64 (a * (b.tdiv g))
  checkedI64 |p|

/-- Unchecked `Add for Ratio<i64>` (num-rational `arith_impl`): equal-
denominator fast path, else rescale to the lcm; overflow panics, surfacing
here as `none`. -/
def R.rawAdd (a b : R) : Option R :=
  if a.denom = b.denom then do
    let n ← checkedI64 (a.numer + b.numer)
    some (Ratio.new n a.denom)
  else do
    let lcm ← lcmI64 a.denom b.denom
    let l ← checkedI64 (a.numer * (lcm.tdiv a.denom))
    let r ← checkedI64 (b.numer * (lcm.tdiv b.denom))
    let n ← checkedI64 (l + r)
    some (Ratio.new n lcm)

/-- Unchecked `Sub for Ratio<i64>`: as `rawAdd` with subtraction. -/
def R.rawSub (a b : R) : Option R :=
  if a.denom = b.denom then do
    let n ← checkedI64 (a.numer - b.numer)
    some (Ratio.new n a.denom)
  else do
    let lcm ← lcmI64 a.denom b.denom
    let l ← checkedI64 (a.numer * (lcm.tdiv a.denom))
    let r ← checkedI64 (b.numer * (lcm.tdiv b.denom))
    let n ← checkedI64 (l - r)
    some (Ratio.new n lcm)

/-- `Ratio::new_raw(1, 2)`, the `half` constant of `Ratio::round`. -/
def half : R := ⟨1, 2⟩

/-- `Ratio::round`: half-away-from-zero rounding.  Take the absolute
fractional part (negation via `0/1 - fract`, a `Sub`), compare it with `1/2`
(`numer >= denom/2` for even denominators, `numer * 2 >= denom` for odd ones —
the doubling can overflow), then truncate `self ± 1/2` (an unchecked `Add` /
`Sub`) or `self` itself. -/
def R.round (a : R) : Option R := do
  let f0 := a.fract
  let fractional ← if R.lt f0 R.zero then R.rawSub R.zero f0 else some f0
  let holB ←
    if fractional.denom.tmod 2 = 0 then
      some (decide (fractional.denom.tdiv 2 ≤ fractional.numer))
    else do
      let m2 ← checkedI64 (fractional.numer * 2)
      some (decide (fractional.denom ≤ m2))
  if holB then
    if R.le R.zero a then do
      let s ← R.rawAdd a half
      some s.trunc
    else do
      let s ← R.rawSub a half
      some s.trunc
  else some a.trunc

/-- `ToPrimitive::to_i64` for `Ratio<i64>`: `self.to_integer().to_i64()` —
the value is truncated toward zero to an integer; that integer is itself an
`i64`, so the conversion always succeeds. -/
def R.toI64 (a : R) : Option Int := some (a.numer.tdiv a.denom)

/-- First loop of `num::traits::checked_pow`: square the base while the
exponent is even (the loop is entered only with a nonzero exponent). -/
def powLoop1 (base : R) (exp : ℕ) : Option (R × ℕ) :=
  if h : exp % 2 = 0 ∧ exp ≠ 0 then
    match R.checked_mul base base with
    | none => none
    | some b => powLoop1 b (exp / 2)
  else some (base, exp)
termination_by exp
decreasing_by exact Nat.div_lt_self (Nat.pos_of_ne_zero h.2) one_lt_two

/-- Second loop of `num::traits::checked_pow`: halve the exponent, square the
base, and fold the base into the accumulator at odd exponents. -/
def powLoop2 (acc base : R) (exp : ℕ) : Option R :=
  if 1 < exp then
    let e := exp / 2
    match R.checked_mul base base with
    | none => none
    | some b =>
      if e % 2 = 1 then
        match R.checked_mul acc b with
        | none => none
        | some acc' => powLoop2 acc' b e
      else powLoop2 acc b e
  else some acc
termination_by exp
decreasing_by
  all_goals exact Nat.div_lt_self (by omega) one_lt_two

/-- `num::traits::checked_pow`: repeated squaring with checked
multiplications. -/
def R.checked_pow (base : R) (exp : ℕ) : Option R :=
  if exp = 0 then some R.one
  else
    match powLoop1 base exp with
    | none => none
    | some (b, e) =>
      if e = 1 then some b
      else powLoop2 b b e

/-- The `pow` primitive (rational.rs lines 51–70): zero base demands a
positive exponent; a zero exponent gives one; otherwise the exponent is
converted by `to_i64` (truncation toward zero) and must be non-negative
(`usize::try_from`), and the power is computed by `checked_pow`. -/
def R.pow (a b : R) : Option R :=
  if a.isZero then
    if b.isPositive then some R.zero else none
  else if b.isZero then some R.one
  else
    match R.toI64 b with
    | some bi => if 0 ≤ bi then R.checked_pow a bi.toNat else none
    | none => none

/-- The `sqrt` primitive (rational.rs lines 78–91): for strictly positive
numerator and denominator take the floor integer square roots, accept exactly
when both square back, and build the root with `Ratio::new`. -/
def R.sqrt (a : R) : Option R :=
  if 0 < a.numer ∧ 0 < a.denom then
    let s1 := Int.sqrt a.numer
    let s2 := Int.sqrt a.denom
    if s1 * s1 = a.numer ∧ s2 * s2 = a.denom then some (Ratio.new s1 s2)
    else none
  else none

/-- The `<` primitive (rational.rs line 100): unit payload when the relation
holds, no result otherwise. -/
def R.ltP (a b : R) : Option Unit := if R.lt a b then some () else none

/-- The `>` primitive. -/
def R.gtP (a b : R) : Option Unit := if R.lt b a then some () else none

/-- The `<=` primitive. -/
def R.leP (a b : R) : Option Unit := if R.le a b then some () else none

/-- The `>=` primitive. -/
def R.geP (a b : R) : Option Unit := if R.le b a then some () else none

/-! ## The canonical store (`RATS: Mutex<IndexSet<R>>`)

`indexmap::IndexSet` keeps elements in insertion order; `insert_full` returns
the index of an equal existing element, or appends and returns the new index;
`get_index i` returns the element at position `i`.  The `Mutex` serializes all
accesses, so the sequential model below is faithful.  We model the set as the
insertion-ordered list of its (distinct) elements. -/

/-- The state of the interning store: insertion-ordered elements. -/
abbrev Store := List R

/-- `IndexSet::insert_full`: index of an equal existing element, else append. -/
def insertFull (s : Store) (v : R) : ℕ × Store :=
  match s.findIdx? (fun x => x = v) with
  | some i => (i, s)
  | none => (s.length, s ++ [v])

/-- `IndexSet::get_index`. -/
def getIndex (s : Store) (i : ℕ) : Option R := s[i]?

/-- `IntoSort::store` for `R` (rational.rs lines 134–144): intern the value,
the handle is the returned index (carried as `Value::bits`). -/
def R.store (s : Store) (v : R) : ℕ × Store := insertFull s v

/-- `FromSort::load` for `R` (rational.rs lines 126–132): look the handle up;
the Rust code `unwrap`s, so a missing index is a panic, modelled as `none`. -/
def R.load (s : Store) (h : ℕ) : Option R := getIndex s h

/-- Interning a sequence of values one after the other. -/
def internAll (s : Store) (ws : List R) : Store :=
  ws.foldl (fun t w => (R.store t w).2) s

/-! ### Store lemmas -/

theorem store_snd (s : Store) (v : R) :
    (R.store s v).2 = s ∨ (R.store s v).2 = s ++ [v] := by
  unfold R.store insertFull
  cases s.findIdx? (fun x => x = v) <;> simp

theorem store_get (s : Store) (v : R) :
    R.load (R.store s v).2 (R.store s v).1 = some v := by
  unfold R.store R.load insertFull getIndex
  cases h : s.findIdx? (fun x => x = v) with
  | none => simp
  | some i =>
    rw [List.findIdx?_eq_some_iff_getElem] at h
    obtain ⟨hlt, hp, -⟩ := h
    simp only [decide_eq_true_eq] at hp
    simp [List.getElem?_eq_getElem hlt, hp]

theorem store_find (s : Store) (v : R) :
    ((R.store s v).2).findIdx? (fun x => x = v) = some (R.store s v).1 := by
  unfold R.store insertFull
  cases h : s.findIdx? (fun x => x = v) with
  | none => simp [h]
  | some i => simpa using h

theorem store_fst_lt (s : Store) (v : R) :
    (R.store s v).1 < (R.store s v).2.length := by
  have h := store_get s v
  unfold R.load getIndex at h
  by_contra hge
  rw [List.getElem?_eq_none (by omega)] at h
  exact Option.noConfusion h

theorem findIdx?_append_of_some {s t : Store} {p : R → Bool} {i : ℕ}
    (h : s.findIdx? p = some i) : (s ++ t).findIdx? p = some i := by
  simp [List.findIdx?_append, h]

theorem getIndex_append_of_lt {s t : Store} {i : ℕ} (h : i < s.length) :
    getIndex (s ++ t) i = getIndex s i := by
  unfold getIndex
  exact List.getElem?_append_left h

theorem internAll_extends (s : Store) (ws : List R) :
    ∃ t, internAll s ws = s ++ t := by
  induction ws generalizing s with
  | nil => exact ⟨[], by simp [internAll]⟩
  | cons w ws ih =>
    show ∃ t, internAll (R.store s w).2 ws = s ++ t
    obtain ⟨t', ht'⟩ := ih (R.store s w).2
    rcases store_snd s w with h | h
    · exact ⟨t', by rw [ht', h]⟩
    · exact ⟨[w] ++ t', by rw [ht', h, List.append_assoc]⟩

/-- After interning `v` (handle `h`, store `s₁`), any extension of `s₁` still
finds `v` at handle `h` and resolves `h` to `v`. -/
theorem store_persist (s : Store) (v : R) (t : Store) :
    (R.store ((R.store s v).2 ++ t) v).1 = (R.store s v).1 ∧
    R.load ((R.store s v).2 ++ t) (R.store s v).1 = some v := by
  constructor
  · show (insertFull _ v).1 = _
    unfold insertFull
    rw [findIdx?_append_of_some (store_find s v)]
  · exact (getIndex_append_of_lt (store_fst_lt s v)).trans (store_get s v)

/-- **C1.** For every rational value `v` and every store state `s`, interning
`v` again — immediately or after any sequence `ws` of further interning
operations — returns the same handle that the first `store` of `v` produced,
and `load` resolves that handle back to `v` (rational.rs lines 126–144). -/
theorem claim_C1 (s : Store) (v : R) (ws : List R) :
    (R.store ((R.store s v).2) v).1 = (R.store s v).1 ∧
    R.load ((R.store s v).2) (R.store s v).1 = some v ∧
    (R.store (internAll ((R.store s v).2) ws) v).1 = (R.store s v).1 ∧
    R.load (internAll ((R.store s v).2) ws) (R.store s v).1 = some v := by
  obtain ⟨t, ht⟩ := internAll_extends ((R.store s v).2) ws
  refine ⟨?_, ?_, ?_, ?_⟩
  · simpa using (store_persist s v []).1
  · simpa using (store_persist s v []).2
  · rw [ht]; exact (store_persist s v t).1
  · rw [ht]; exact (store_persist s v t).2

/-- **C2.** Interning a value already present returns its existing position
and leaves the store unchanged; interning a fresh value appends it and returns
the previous population count as its handle; and the handles of two distinct
values — the second interned at any later store state — always differ. -/
theorem claim_C2 (s : Store) (v v1 v2 : R) (ws : List R) (hne : v1 ≠ v2) :
    (v ∉ s → R.store s v = (s.length, s ++ [v])) ∧
    (v ∈ s → (R.store s v).2 = s ∧ R.load s (R.store s v).1 = some v) ∧
    (R.store (internAll ((R.store s v1).2) ws) v2).1 ≠ (R.store s v1).1 := by
  refine ⟨?_, ?_, ?_⟩
  · intro hv
    show insertFull s v = _
    unfold insertFull
    rw [List.findIdx?_eq_none_iff.mpr ?_]
    intro x hx
    simp only [decide_eq_false_iff_not]
    exact fun hxv => hv (hxv ▸ hx)
  · intro hv
    have h : (s.findIdx? (fun x => x = v)).isSome := by
      rw [List.findIdx?_isSome, List.any_eq_true]
      exact ⟨v, hv, by simp⟩
    obtain ⟨i, hi⟩ := Option.isSome_iff_exists.mp h
    constructor
    · show (insertFull s v).2 = s
      unfold insertFull; rw [hi]
    · have hg := store_get s v
      have hs : (R.store s v).2 = s := by unfold R.store insertFull; rw [hi]
      rw [hs] at hg
      exact hg
  · intro heq
    -- resolve both handles in the final store: they would name the same slot
    obtain ⟨t, ht⟩ := internAll_extends ((R.store s v1).2) ws
    set sMid := internAll ((R.store s v1).2) ws with hMid
    have h2 : R.load ((R.store sMid v2).2) (R.store sMid v2).1 = some v2 :=
      store_get sMid v2
    have h1 : R.load ((R.store sMid v2).2) (R.store s v1).1 = some v1 := by
      rcases store_snd sMid v2 with hcase | hcase
      · rw [hcase, ht]
        exact (store_persist s v1 t).2
      · rw [hcase, ht, List.append_assoc]
        exact (store_persist s v1 (t ++ [v2])).2
    rw [heq, h1] at h2
    exact hne (Option.some_injective _ h2)

/-! ### Arithmetic bridging lemmas -/

theorem checkedI64_some {n m : Int} (h : checkedI64 n = some m) :
    fitsI64 n ∧ m = n := by
  unfold checkedI64 at h
  split at h
  · exact ⟨‹_›, (Option.some_injective _ h).symm⟩
  · exact Option.noConfusion h

theorem checkedI64_of_fits {n : Int} (h : fitsI64 n) : checkedI64 n = some n := by
  unfold checkedI64
  simp [h]

theorem fitsI64_iff {n : Int} : fitsI64 n ↔ -(2 ^ 63) ≤ n ∧ n ≤ 2 ^ 63 - 1 :=
  Iff.rfl

theorem fitsI64_tdiv {n : Int} (g : Int) (hn : fitsI64 n) (hg : 0 ≤ g) :
    fitsI64 (n.tdiv g) := by
  rw [fitsI64_iff] at hn ⊢
  have habs : (n.tdiv g).natAbs ≤ n.natAbs := by
    rw [Int.natAbs_tdiv]
    exact Nat.div_le_self _ _
  have hpos : 0 ≤ n → 0 ≤ n.tdiv g := fun h => Int.tdiv_nonneg h hg
  have hneg : n ≤ 0 → n.tdiv g ≤ 0 := by
    intro h
    have : 0 ≤ (-n).tdiv g := Int.tdiv_nonneg (by omega) hg
    rw [Int.neg_tdiv] at this
    omega
  omega

/-- `Ratio::new` on a positive denominator yields a well-formed reduced value
denoting `n / d`. -/
theorem Ratio.new_spec {n d : Int} (hd : 0 < d) (hn : fitsI64 n) (hfd : fitsI64 d) :
    (Ratio.new n d).wf ∧ (Ratio.new n d).val = (n : ℚ) / (d : ℚ) := by
  unfold Ratio.new
  by_cases h0 : n = 0
  · subst h0
    rw [if_pos rfl]
    refine ⟨⟨by decide, by simp, by decide, by decide⟩, ?_⟩
    simp [R.val]
  · rw [if_neg h0]
    set g : Int := (Int.gcd n d : ℤ) with hgdef
    have hred : Int.gcd (n.tdiv g) (d.tdiv g) = 1 := by
      rw [hgdef, Int.tdiv_eq_ediv_of_dvd Int.gcd_dvd_left,
        Int.tdiv_eq_ediv_of_dvd Int.gcd_dvd_right]
      refine Int.gcd_div_gcd_div_gcd ?_
      have : Int.gcd n d ≠ 0 := fun hz => h0 (Int.gcd_eq_zero_iff.mp hz).1
      exact Nat.pos_of_ne_zero this
    have hgpos : (0 : ℤ) < g := by
      rw [hgdef]
      have : Int.gcd n d ≠ 0 := fun hz => h0 (Int.gcd_eq_zero_iff.mp hz).1
      exact_mod_cast Nat.pos_of_ne_zero this
    have hgne : g ≠ 0 := by omega
    obtain ⟨n₀, hn₀⟩ : g ∣ n := hgdef ▸ Int.gcd_dvd_left
    obtain ⟨d₀, hd₀⟩ : g ∣ d := hgdef ▸ Int.gcd_dvd_right
    have htn : n.tdiv g = n₀ := by rw [hn₀, Int.mul_tdiv_cancel_left _ hgne]
    have htd : d.tdiv g = d₀ := by rw [hd₀, Int.mul_tdiv_cancel_left _ hgne]
    have hd₀pos : 0 < d₀ := by
      rcases mul_pos_iff.mp (hd₀ ▸ hd) with ⟨-, h⟩ | ⟨h, -⟩
      · exact h
      · omega
    have hnof : ¬ d.tdiv g < 0 := by rw [htd]; omega
    rw [if_neg hnof]
    refine ⟨⟨by simpa [htd] using hd₀pos, hred,
      fitsI64_tdiv _ hn (by omega), fitsI64_tdiv _ hfd (by omega)⟩, ?_⟩
    show ((n.tdiv g : ℤ) : ℚ) / ((d.tdiv g : ℤ) : ℚ) = _
    rw [htn, htd]
    have hgq : ((g : ℤ) : ℚ) ≠ 0 := by exact_mod_cast hgne
    rw [hn₀, hd₀]
    push_cast
    rw [mul_div_mul_left _ _ hgq]

/-- A rational has a unique reduced fixed-width representation. -/
theorem val_inj' {a b : R} (had : 0 < a.denom) (hag : Int.gcd a.numer a.denom = 1)
    (hbd : 0 < b.denom) (hbg : Int.gcd b.numer b.denom = 1)
    (h : a.val = b.val) : a = b := by
  have hadq : ((a.denom : ℚ)) ≠ 0 := by exact_mod_cast had.ne'
  have hbdq : ((b.denom : ℚ)) ≠ 0 := by exact_mod_cast hbd.ne'
  rw [R.val, R.val, div_eq_div_iff hadq hbdq] at h
  have hcross : a.numer * b.denom = b.numer * a.denom := by exact_mod_cast h
  have hco_a : IsCoprime a.numer a.denom := Int.gcd_eq_one_iff_coprime.mp hag
  have hco_b : IsCoprime b.numer b.denom := Int.gcd_eq_one_iff_coprime.mp hbg
  have hdvd1 : a.denom ∣ b.denom := by
    have : a.denom ∣ a.numer * b.denom := ⟨b.numer, by linarith [hcross]⟩
    exact (hco_a.symm.dvd_of_dvd_mul_left this)
  have hdvd2 : b.denom ∣ a.denom := by
    have : b.denom ∣ b.numer * a.denom := ⟨a.numer, by linarith [hcross]⟩
    exact (hco_b.symm.dvd_of_dvd_mul_left this)
  have hdeq : a.denom = b.denom := Int.dvd_antisymm (by omega) (by omega) hdvd1 hdvd2
  have hneq : a.numer = b.numer := by
    rw [hdeq] at hcross
    exact mul_right_cancel₀ (by omega) hcross
  cases a; cases b
  simp_all

/-- A rational has a unique reduced fixed-width representation. -/
theorem val_inj {a b : R} (ha : a.wf) (hb : b.wf) (h : a.val = b.val) : a = b :=
  val_inj' ha.1 ha.2.1 hb.1 hb.2.1 h

theorem lt_iff_val {a b : R} (ha : 0 < a.denom) (hb : 0 < b.denom) :
    R.lt a b ↔ a.val < b.val := by
  have haq : (0 : ℚ) < (a.denom : ℚ) := by exact_mod_cast ha
  have hbq : (0 : ℚ) < (b.denom : ℚ) := by exact_mod_cast hb
  rw [R.val, R.val, div_lt_div_iff₀ haq hbq, R.lt]
  constructor
  · intro h; exact_mod_cast h
  · intro h; exact_mod_cast h

theorem le_iff_val {a b : R} (ha : 0 < a.denom) (hb : 0 < b.denom) :
    R.le a b ↔ a.val ≤ b.val := by
  have haq : (0 : ℚ) < (a.denom : ℚ) := by exact_mod_cast ha
  have hbq : (0 : ℚ) < (b.denom : ℚ) := by exact_mod_cast hb
  rw [R.val, R.val, div_le_div_iff₀ haq hbq, R.le]
  constructor
  · intro h; exact_mod_cast h
  · intro h; exact_mod_cast h

/-- Splitting two integers (not both zero) along their gcd: the cofactors are
what `tdiv` by the gcd computes, and they are coprime. -/
theorem gcd_split {x y : Int} (hne : x ≠ 0 ∨ y ≠ 0) :
    ∃ u v : Int, x = (Int.gcd x y : Int) * u ∧ y = (Int.gcd x y : Int) * v ∧
      x.tdiv (Int.gcd x y : Int) = u ∧ y.tdiv (Int.gcd x y : Int) = v ∧
      IsCoprime u v ∧ (0 : Int) < (Int.gcd x y : Int) := by
  have hgpos : (0 : Int) < (Int.gcd x y : Int) := by
    exact_mod_cast Int.gcd_pos_iff.mpr hne
  have hgne : ((Int.gcd x y : Int)) ≠ 0 := by omega
  obtain ⟨u, hu⟩ : ((Int.gcd x y : Int)) ∣ x := Int.gcd_dvd_left
  obtain ⟨v, hv⟩ : ((Int.gcd x y : Int)) ∣ y := Int.gcd_dvd_right
  have htu : x.tdiv (Int.gcd x y : Int) = u := Int.tdiv_eq_of_eq_mul_right hgne hu
  have htv : y.tdiv (Int.gcd x y : Int) = v := Int.tdiv_eq_of_eq_mul_right hgne hv
  refine ⟨u, v, hu, hv, htu, htv, ?_, hgpos⟩
  have h1 : Int.gcd (x / (Int.gcd x y : Int)) (y / (Int.gcd x y : Int)) = 1 :=
    Int.gcd_div_gcd_div_gcd (by exact_mod_cast hgpos)
  rw [← Int.tdiv_eq_ediv_of_dvd Int.gcd_dvd_left,
    ← Int.tdiv_eq_ediv_of_dvd Int.gcd_dvd_right, htu, htv] at h1
  exact Int.gcd_eq_one_iff_coprime.mp h1

/-- `checked_mul` on well-formed inputs: a result is well-formed and denotes
the exact product. -/
theorem checked_mul_spec {a b r : R} (ha : a.wf) (hb : b.wf)
    (h : R.checked_mul a b = some r) : r.wf ∧ r.val = a.val * b.val := by
  obtain ⟨hadp, hag, hafn, hafd⟩ := ha
  obtain ⟨hbdp, hbg, hbfn, hbfd⟩ := hb
  simp only [R.checked_mul, Option.bind_eq_bind, Option.bind_eq_some,
    Option.some.injEq] at h
  obtain ⟨n, hn, d, hd, hr⟩ := h
  obtain ⟨hfn, hneq⟩ := checkedI64_some hn
  obtain ⟨hfd, hdeq⟩ := checkedI64_some hd
  obtain ⟨an, bd, han, hbd, htan, htbd, hco1, hg1⟩ :=
    gcd_split (x := a.numer) (y := b.denom) (Or.inr (by omega))
  obtain ⟨ad, bn, had, hbn, htad, htbn, hco2, hg2⟩ :=
    gcd_split (x := a.denom) (y := b.numer) (Or.inl (by omega))
  rw [htan, htbn] at hneq hfn
  rw [htad, htbd] at hdeq hfd
  have hadpos : 0 < ad := by
    rcases mul_pos_iff.mp (had ▸ hadp) with ⟨-, h⟩ | ⟨h, -⟩
    · exact h
    · omega
  have hbdpos : 0 < bd := by
    rcases mul_pos_iff.mp (hbd ▸ hbdp) with ⟨-, h⟩ | ⟨h, -⟩
    · exact h
    · omega
  -- coprimality of the cross-cancelled product
  have hcoA : IsCoprime a.numer a.denom := Int.gcd_eq_one_iff_coprime.mp hag
  have hcoB : IsCoprime b.numer b.denom := Int.gcd_eq_one_iff_coprime.mp hbg
  have h_an_ad : IsCoprime an ad :=
    (hcoA.of_isCoprime_of_dvd_left ⟨_, by rw [han, mul_comm]⟩).of_isCoprime_of_dvd_right
      ⟨_, by rw [had, mul_comm]⟩
  have h_bn_bd : IsCoprime bn bd :=
    (hcoB.of_isCoprime_of_dvd_left ⟨_, by rw [hbn, mul_comm]⟩).of_isCoprime_of_dvd_right
      ⟨_, by rw [hbd, mul_comm]⟩
  have hco_n_d : IsCoprime (an * bn) (ad * bd) :=
    IsCoprime.mul_left (IsCoprime.mul_right h_an_ad hco1)
      (IsCoprime.mul_right hco2.symm h_bn_bd)
  constructor
  · subst hr
    refine ⟨?_, ?_, by rw [hneq]; exact hfn, by rw [hdeq]; exact hfd⟩
    · show 0 < d
      rw [hdeq]
      exact mul_pos hadpos hbdpos
    · show Int.gcd n d = 1
      rw [hneq, hdeq]
      exact Int.gcd_eq_one_iff_coprime.mpr hco_n_d
  · subst hr
    show (n : ℚ) / (d : ℚ) = _
    rw [hneq, hdeq, R.val, R.val, div_mul_div_comm]
    have e1 : ((a.numer : ℤ) : ℚ) = ((Int.gcd a.numer b.denom : ℤ) : ℚ) * (an : ℚ) := by
      exact_mod_cast han
    have e2 : ((b.denom : ℤ) : ℚ) = ((Int.gcd a.numer b.denom : ℤ) : ℚ) * (bd : ℚ) := by
      exact_mod_cast hbd
    have e3 : ((a.denom : ℤ) : ℚ) = ((Int.gcd a.denom b.numer : ℤ) : ℚ) * (ad : ℚ) := by
      exact_mod_cast had
    have e4 : ((b.numer : ℤ) : ℚ) = ((Int.gcd a.denom b.numer : ℤ) : ℚ) * (bn : ℚ) := by
      exact_mod_cast hbn
    rw [e1, e2, e3, e4]
    have hg1q : ((Int.gcd a.numer b.denom : ℤ) : ℚ) ≠ 0 := by exact_mod_cast hg1.ne'
    have hg2q : ((Int.gcd a.denom b.numer : ℤ) : ℚ) ≠ 0 := by exact_mod_cast hg2.ne'
    have hrw1 : ((Int.gcd a.numer b.denom : ℤ) : ℚ) * (an : ℚ) *
          (((Int.gcd a.denom b.numer : ℤ) : ℚ) * (bn : ℚ)) =
        ((Int.gcd a.numer b.denom : ℤ) : ℚ) * ((Int.gcd a.denom b.numer : ℤ) : ℚ) *
          ((an : ℚ) * (bn : ℚ)) := by ring
    have hrw2 : ((Int.gcd a.denom b.numer : ℤ) : ℚ) * (ad : ℚ) *
          (((Int.gcd a.numer b.denom : ℤ) : ℚ) * (bd : ℚ)) =
        ((Int.gcd a.numer b.denom : ℤ) : ℚ) * ((Int.gcd a.denom b.numer : ℤ) : ℚ) *
          ((ad : ℚ) * (bd : ℚ)) := by ring
    rw [hrw1, hrw2, mul_div_mul_left _ _ (mul_ne_zero hg1q hg2q)]
    push_cast
    ring

theorem wf_zero : R.zero.wf := by decide

theorem wf_one : R.one.wf := by decide

theorem val_zero : R.zero.val = 0 := by simp [R.val, R.zero]

theorem val_one : R.one.val = 1 := by simp [R.val, R.one]

/-- Pure fraction identity backing `checked_add_spec`. -/
theorem add_frac_eq {g u v p q : ℚ} (hg : g ≠ 0) (hu : u ≠ 0) (hv : v ≠ 0) :
    (v * p + u * q) / (u * (g * v)) = p / (g * u) + q / (g * v) := by
  field_simp
  ring

/-- Pure fraction identity backing `checked_sub_spec`. -/
theorem sub_frac_eq {g u v p q : ℚ} (hg : g ≠ 0) (hu : u ≠ 0) (hv : v ≠ 0) :
    (v * p - u * q) / (u * (g * v)) = p / (g * u) - q / (g * v) := by
  field_simp
  ring

/-- `checked_add` on well-formed inputs: a result is well-formed and denotes
the exact sum. -/
theorem checked_add_spec {a b r : R} (ha : a.wf) (hb : b.wf)
    (h : R.checked_add a b = some r) : r.wf ∧ r.val = a.val + b.val := by
  obtain ⟨hadp, -, hafn, hafd⟩ := ha
  obtain ⟨hbdp, -, hbfn, hbfd⟩ := hb
  simp only [R.checked_add, Option.bind_eq_bind, Option.bind_eq_some,
    Option.some.injEq] at h
  obtain ⟨lcm, hlcm, l, hl, rr, hrr, n, hn, hres⟩ := h
  obtain ⟨u, v, hau, hbv, htu, htv, -, hg⟩ :=
    gcd_split (x := a.denom) (y := b.denom) (Or.inl (by omega))
  obtain ⟨hflcm, hlcmeq⟩ := checkedI64_some hlcm
  rw [← hlcmeq] at hflcm
  rw [htu] at hlcmeq
  have hupos : 0 < u := by
    rcases mul_pos_iff.mp (hau ▸ hadp) with ⟨-, h'⟩ | ⟨h', -⟩
    · exact h'
    · omega
  have hvpos : 0 < v := by
    rcases mul_pos_iff.mp (hbv ▸ hbdp) with ⟨-, h'⟩ | ⟨h', -⟩
    · exact h'
    · omega
  have hlcmpos : 0 < lcm := by
    rw [hlcmeq]
    exact mul_pos hupos hbdp
  have hta : lcm.tdiv a.denom = v :=
    Int.tdiv_eq_of_eq_mul_right (by omega)
      (by linear_combination hlcmeq + u * hbv - v * hau)
  have htb : lcm.tdiv b.denom = u :=
    Int.tdiv_eq_of_eq_mul_right (by omega) (by linear_combination hlcmeq)
  obtain ⟨hfl, hleq⟩ := checkedI64_some hl
  obtain ⟨hfr, hreq⟩ := checkedI64_some hrr
  obtain ⟨hfn, hneq⟩ := checkedI64_some hn
  rw [← hneq] at hfn
  rw [hta] at hleq
  rw [htb] at hreq
  rw [hleq, hreq] at hneq
  obtain ⟨hwf, hval⟩ := Ratio.new_spec hlcmpos hfn hflcm
  subst hres
  refine ⟨hwf, ?_⟩
  rw [hval, hneq]
  have hnq : ((v * a.numer + u * b.numer : ℤ) : ℚ) =
      (v : ℚ) * (a.numer : ℚ) + (u : ℚ) * (b.numer : ℚ) := by push_cast; ring
  have hlint : lcm = u * ((Int.gcd a.denom b.denom : ℤ) * v) := by
    linear_combination hlcmeq + u * hbv
  have hlq : ((lcm : ℤ) : ℚ) =
      (u : ℚ) * (((Int.gcd a.denom b.denom : ℤ) : ℚ) * (v : ℚ)) := by
    exact_mod_cast hlint
  have haq : ((a.denom : ℤ) : ℚ) = ((Int.gcd a.denom b.denom : ℤ) : ℚ) * (u : ℚ) := by
    exact_mod_cast hau
  have hbq : ((b.denom : ℤ) : ℚ) = ((Int.gcd a.denom b.denom : ℤ) : ℚ) * (v : ℚ) := by
    exact_mod_cast hbv
  rw [R.val, R.val, hnq, hlq, haq, hbq]
  exact add_frac_eq (by exact_mod_cast hg.ne') (by exact_mod_cast hupos.ne')
    (by exact_mod_cast hvpos.ne')

/-- `checked_sub` on well-formed inputs: a result is well-formed and denotes
the exact difference. -/
theorem checked_sub_spec {a b r : R} (ha : a.wf) (hb : b.wf)
    (h : R.checked_sub a b = some r) : r.wf ∧ r.val = a.val - b.val := by
  obtain ⟨hadp, -, hafn, hafd⟩ := ha
  obtain ⟨hbdp, -, hbfn, hbfd⟩ := hb
  simp only [R.checked_sub, Option.bind_eq_bind, Option.bind_eq_some,
    Option.some.injEq] at h
  obtain ⟨lcm, hlcm, l, hl, rr, hrr, n, hn, hres⟩ := h
  obtain ⟨u, v, hau, hbv, htu, htv, -, hg⟩ :=
    gcd_split (x := a.denom) (y := b.denom) (Or.inl (by omega))
  obtain ⟨hflcm, hlcmeq⟩ := checkedI64_some hlcm
  rw [← hlcmeq] at hflcm
  rw [htu] at hlcmeq
  have hupos : 0 < u := by
    rcases mul_pos_iff.mp (hau ▸ hadp) with ⟨-, h'⟩ | ⟨h', -⟩
    · exact h'
    · omega
  have hvpos : 0 < v := by
    rcases mul_pos_iff.mp (hbv ▸ hbdp) with ⟨-, h'⟩ | ⟨h', -⟩
    · exact h'
    · omega
  have hlcmpos : 0 < lcm := by
    rw [hlcmeq]
    exact mul_pos hupos hbdp
  have hta : lcm.tdiv a.denom = v :=
    Int.tdiv_eq_of_eq_mul_right (by omega)
      (by linear_combination hlcmeq + u * hbv - v * hau)
  have htb : lcm.tdiv b.denom = u :=
    Int.tdiv_eq_of_eq_mul_right (by omega) (by linear_combination hlcmeq)
  obtain ⟨hfl, hleq⟩ := checkedI64_some hl
  obtain ⟨hfr, hreq⟩ := checkedI64_some hrr
  obtain ⟨hfn, hneq⟩ := checkedI64_some hn
  rw [← hneq] at hfn
  rw [hta] at hleq
  rw [htb] at hreq
  rw [hleq, hreq] at hneq
  obtain ⟨hwf, hval⟩ := Ratio.new_spec hlcmpos hfn hflcm
  subst hres
  refine ⟨hwf, ?_⟩
  rw [hval, hneq]
  have hnq : ((v * a.numer - u * b.numer : ℤ) : ℚ) =
      (v : ℚ) * (a.numer : ℚ) - (u : ℚ) * (b.numer : ℚ) := by push_cast; ring
  have hlint : lcm = u * ((Int.gcd a.denom b.denom : ℤ) * v) := by
    linear_combination hlcmeq + u * hbv
  have hlq : ((lcm : ℤ) : ℚ) =
      (u : ℚ) * (((Int.gcd a.denom b.denom : ℤ) : ℚ) * (v : ℚ)) := by
    exact_mod_cast hlint
  have haq : ((a.denom : ℤ) : ℚ) = ((Int.gcd a.denom b.denom : ℤ) : ℚ) * (u : ℚ) := by
    exact_mod_cast hau
  have hbq : ((b.denom : ℤ) : ℚ) = ((Int.gcd a.denom b.denom : ℤ) : ℚ) * (v : ℚ) := by
    exact_mod_cast hbv
  rw [R.val, R.val, hnq, hlq, haq, hbq]
  exact sub_frac_eq (by exact_mod_cast hg.ne') (by exact_mod_cast hupos.ne')
    (by exact_mod_cast hvpos.ne')

/-- `checked_mul a (0/1)` always succeeds with `0/1`: the cross-cancellation
zeroes the numerator and collapses the denominator to 1. -/
theorem checked_mul_zero {a : R} (ha : a.wf) : R.checked_mul a R.zero = some R.zero := by
  obtain ⟨hadp, -, -, -⟩ := ha
  have hdne : a.denom ≠ 0 := by omega
  unfold R.checked_mul R.zero
  simp only [Int.gcd_one, Int.gcd_zero_right, Nat.cast_one, Int.tdiv_one,
    Int.zero_tdiv, mul_zero, Int.natAbs_of_nonneg (le_of_lt hadp),
    Int.tdiv_self hdne, one_mul, mul_one]
  rw [checkedI64_of_fits (by decide), checkedI64_of_fits (by decide)]
  rfl

theorem isZero_iff_eq_zero {b : R} (hb : b.wf) : b.isZero ↔ b = R.zero := by
  obtain ⟨hd, hg, -, -⟩ := hb
  constructor
  · intro h
    have h1 : b.denom.natAbs = 1 := by
      rw [R.isZero] at h
      rw [h, Int.gcd] at hg
      simpa using hg
    have h2 : b.denom = 1 := by omega
    cases b
    simp_all [R.isZero, R.zero]
  · intro h
    rw [h]
    show (0 : Int) = 0
    rfl

/-- The common correctness core of the `checked_div` reduction phase: if the
pre-reduction pair `(n, d)` denotes the true quotient, the reduction returns a
well-formed value denoting it. -/
theorem divReduce_spec {n d : Int} {q : ℚ} {r : R}
    (hfn : fitsI64 n) (hfd : fitsI64 d) (hq : (n : ℚ) / (d : ℚ) = q)
    (h : (if d = 0 then none
          else if n = 0 then some R.zero
          else if n = d then some R.one
          else
            let g : Int := Int.gcd n d
            let n' := n.tdiv g
            let d' := d.tdiv g
            if d' < 0 then do
              let nn ← checkedI64 (-n')
              let dd ← checkedI64 (-d')
              some (⟨nn, dd⟩ : R)
            else some (⟨n', d'⟩ : R)) = some r) :
    r.wf ∧ r.val = q := by
  by_cases hd0 : d = 0
  · rw [if_pos hd0] at h
    exact Option.noConfusion h
  rw [if_neg hd0] at h
  by_cases hn0 : n = 0
  · rw [if_pos hn0] at h
    have hr : r = R.zero := (Option.some_injective _ h).symm
    subst hr
    refine ⟨wf_zero, ?_⟩
    rw [val_zero, ← hq, hn0]
    simp
  rw [if_neg hn0] at h
  by_cases hnd : n = d
  · rw [if_pos hnd] at h
    have hr : r = R.one := (Option.some_injective _ h).symm
    subst hr
    refine ⟨wf_one, ?_⟩
    rw [val_one, ← hq, hnd]
    rw [div_self]
    exact_mod_cast hd0
  rw [if_neg hnd] at h
  obtain ⟨n₀, d₀, hn₁, hd₁, htn, htd, hco, hg⟩ :=
    gcd_split (x := n) (y := d) (Or.inl hn0)
  simp only [htn, htd] at h
  have hd₀0 : d₀ ≠ 0 := by
    intro hz
    rw [hz, mul_zero] at hd₁
    exact hd0 hd₁
  have hgq : ((Int.gcd n d : ℤ) : ℚ) ≠ 0 := by exact_mod_cast hg.ne'
  have hfrac : ((n₀ : ℤ) : ℚ) / ((d₀ : ℤ) : ℚ) = q := by
    have e1 : ((n : ℤ) : ℚ) = ((Int.gcd n d : ℤ) : ℚ) * (n₀ : ℚ) := by exact_mod_cast hn₁
    have e2 : ((d : ℤ) : ℚ) = ((Int.gcd n d : ℤ) : ℚ) * (d₀ : ℚ) := by exact_mod_cast hd₁
    rw [← hq, e1, e2, mul_div_mul_left _ _ hgq]
  have hgcd₀ : Int.gcd n₀ d₀ = 1 := Int.gcd_eq_one_iff_coprime.mpr hco
  by_cases hneg : d₀ < 0
  · rw [if_pos hneg] at h
    simp only [Option.bind_eq_bind, Option.bind_eq_some, Option.some.injEq] at h
    obtain ⟨nn, hnn, dd, hdd, hr⟩ := h
    obtain ⟨hfnn, hnneq⟩ := checkedI64_some hnn
    obtain ⟨hfdd, hddeq⟩ := checkedI64_some hdd
    subst hr
    refine ⟨⟨?_, ?_, by rw [hnneq]; exact hfnn, by rw [hddeq]; exact hfdd⟩, ?_⟩
    · show 0 < dd
      omega
    · show Int.gcd nn dd = 1
      rw [hnneq, hddeq, Int.neg_gcd, Int.gcd_neg]
      exact hgcd₀
    · show ((nn : ℤ) : ℚ) / ((dd : ℤ) : ℚ) = q
      rw [hnneq, hddeq, ← hfrac]
      push_cast
      rw [neg_div_neg_eq]
  · rw [if_neg hneg] at h
    have hr : r = ⟨n₀, d₀⟩ := (Option.some_injective _ h).symm
    subst hr
    have hfn₀ : fitsI64 n₀ := htn ▸ fitsI64_tdiv _ hfn (by omega)
    have hfd₀ : fitsI64 d₀ := htd ▸ fitsI64_tdiv _ hfd (by omega)
    exact ⟨⟨show 0 < d₀ by omega, hgcd₀, hfn₀, hfd₀⟩, hfrac⟩

/-- Pure fraction identity backing the cross-cancelled `checked_div` branch. -/
theorem div_frac_eq {g1 g2 u u' w w' : ℚ} (hg1 : g1 ≠ 0) (hg2 : g2 ≠ 0)
    (hw : w ≠ 0) (hu' : u' ≠ 0) :
    (u * w') / (w * u') = (g1 * u / (g2 * w)) / (g1 * u' / (g2 * w')) := by
  rw [div_div_div_eq]
  rw [div_eq_div_iff (by exact mul_ne_zero hw hu') (by positivity)]
  ring

/-- `checked_div` on well-formed inputs: a result means the divisor was
nonzero, and the result is well-formed and denotes the exact quotient. -/
theorem checked_div_spec {a b r : R} (ha : a.wf) (hb : b.wf)
    (h : R.checked_div a b = some r) :
    ¬b.isZero ∧ r.wf ∧ r.val = a.val / b.val := by
  obtain ⟨hadp, hag, hafn, hafd⟩ := ha
  obtain ⟨hbdp, hbg, hbfn, hbfd⟩ := hb
  rw [R.checked_div] at h
  by_cases hbz : b.isZero
  · rw [if_pos hbz] at h
    exact Option.noConfusion h
  rw [if_neg hbz] at h
  refine ⟨hbz, ?_⟩
  have hbn0 : b.numer ≠ 0 := fun hh => hbz hh
  have hbnq : ((b.numer : ℤ) : ℚ) ≠ 0 := by exact_mod_cast hbn0
  have hadq : ((a.denom : ℤ) : ℚ) ≠ 0 := by exact_mod_cast hadp.ne'
  have hbdq : ((b.denom : ℤ) : ℚ) ≠ 0 := by exact_mod_cast hbdp.ne'
  by_cases h1 : a.denom = b.denom
  · rw [if_pos h1, Option.bind_eq_bind, Option.some_bind] at h
    have hq : ((a.numer : ℤ) : ℚ) / ((b.numer : ℤ) : ℚ) = a.val / b.val := by
      rw [R.val, R.val, h1, div_div_div_comm, div_self hbdq, div_one]
    exact divReduce_spec hafn hbfn hq h
  rw [if_neg h1] at h
  by_cases h2 : a.numer = b.numer
  · rw [if_pos h2, Option.bind_eq_bind, Option.some_bind] at h
    have hanq : ((a.numer : ℤ) : ℚ) ≠ 0 := by
      rw [show a.numer = b.numer from h2]
      exact hbnq
    have hq : ((b.denom : ℤ) : ℚ) / ((a.denom : ℤ) : ℚ) = a.val / b.val := by
      rw [R.val, R.val, ← h2, div_div_div_comm, div_self hanq, one_div, inv_div]
    exact divReduce_spec hbfd hafd hq h
  rw [if_neg h2] at h
  simp only [Option.bind_eq_bind, Option.bind_assoc, Option.some_bind,
    Option.bind_eq_some] at h
  obtain ⟨n', hn', d', hd', hrest⟩ := h
  obtain ⟨u, u', hau, hbu, htu, htu', hco1, hg1⟩ :=
    gcd_split (x := a.numer) (y := b.numer) (Or.inr hbn0)
  obtain ⟨w, w', haw, hbw, htw, htw', hco2, hg2⟩ :=
    gcd_split (x := a.denom) (y := b.denom) (Or.inl (by omega))
  obtain ⟨hfn', hneq⟩ := checkedI64_some hn'
  obtain ⟨hfd', hdeq⟩ := checkedI64_some hd'
  rw [← hneq] at hfn'
  rw [← hdeq] at hfd'
  rw [htu, htw'] at hneq
  rw [htw, htu'] at hdeq
  have hu'0 : u' ≠ 0 := by
    intro hz
    rw [hz, mul_zero] at hbu
    exact hbn0 hbu
  have hwpos : 0 < w := by
    rcases mul_pos_iff.mp (haw ▸ hadp) with ⟨-, h'⟩ | ⟨h', -⟩
    · exact h'
    · omega
  have hw'pos : 0 < w' := by
    rcases mul_pos_iff.mp (hbw ▸ hbdp) with ⟨-, h'⟩ | ⟨h', -⟩
    · exact h'
    · omega
  have hq : ((n' : ℤ) : ℚ) / ((d' : ℤ) : ℚ) = a.val / b.val := by
    rw [hneq, hdeq, R.val, R.val]
    have e1 : ((a.numer : ℤ) : ℚ) = ((Int.gcd a.numer b.numer : ℤ) : ℚ) * (u : ℚ) := by
      exact_mod_cast hau
    have e2 : ((b.numer : ℤ) : ℚ) = ((Int.gcd a.numer b.numer : ℤ) : ℚ) * (u' : ℚ) := by
      exact_mod_cast hbu
    have e3 : ((a.denom : ℤ) : ℚ) = ((Int.gcd a.denom b.denom : ℤ) : ℚ) * (w : ℚ) := by
      exact_mod_cast haw
    have e4 : ((b.denom : ℤ) : ℚ) = ((Int.gcd a.denom b.denom : ℤ) : ℚ) * (w' : ℚ) := by
      exact_mod_cast hbw
    rw [e1, e2, e3, e4]
    push_cast
    exact div_frac_eq (by exact_mod_cast hg1.ne') (by exact_mod_cast hg2.ne')
      (by exact_mod_cast hwpos.ne') (by exact_mod_cast hu'0)
  exact divReduce_spec hfn' hfd' hq hrest

/-- Dividing a nonzero value by itself takes the equal-denominator fast path
and the `n == d` shortcut of the manual reduction, giving `1/1`. -/
theorem checked_div_self {a : R} (hnz : ¬a.isZero) :
    R.checked_div a a = some R.one := by
  have hnz' : ¬a.numer = 0 := fun hh => hnz hh
  rw [R.checked_div, if_neg hnz, if_pos rfl, Option.bind_eq_bind, Option.some_bind]
  dsimp only
  rw [if_neg hnz', if_neg hnz', if_pos rfl]

/-- **C5.** `div` has no result exactly on a zero divisor or overflow: a zero
divisor gives `none`; any produced result is the exact reduced quotient (so a
`none` on a nonzero divisor can only come from an overflowing checked step);
`div(a, a)` fails iff `a = 0` and otherwise equals `1/1`
(rational.rs line 36). -/
theorem claim_C5 (a b : R) (ha : a.wf) (hb : b.wf) :
    (b = R.zero → R.checked_div a b = none) ∧
    (∀ r, R.checked_div a b = some r → b ≠ R.zero ∧ r.wf ∧ r.val = a.val / b.val) ∧
    (R.checked_div a a = none ↔ a = R.zero) ∧
    (a ≠ R.zero → R.checked_div a a = some R.one) := by
  refine ⟨?_, ?_, ?_, ?_⟩
  · intro hb0
    rw [R.checked_div, if_pos ((isZero_iff_eq_zero hb).mpr hb0)]
  · intro r hr
    obtain ⟨h1, h2, h3⟩ := checked_div_spec ha hb hr
    exact ⟨fun he => h1 ((isZero_iff_eq_zero hb).mpr he), h2, h3⟩
  · constructor
    · intro hnone
      by_contra hne
      rw [checked_div_self (fun hh => hne ((isZero_iff_eq_zero ha).mp hh))] at hnone
      exact Option.noConfusion hnone
    · intro h0
      rw [R.checked_div, if_pos ((isZero_iff_eq_zero ha).mpr h0)]
  · intro hne
    exact checked_div_self (fun hh => hne ((isZero_iff_eq_zero ha).mp hh))

/-- Witness for C5 at `a = 1/2`, `b = 1/3`. -/
theorem claim_C5_witness :
    ((⟨1, 2⟩ : R).wf ∧ (⟨1, 3⟩ : R).wf) ∧
    (((⟨1, 3⟩ : R) = R.zero → R.checked_div ⟨1, 2⟩ ⟨1, 3⟩ = none) ∧
     (∀ r, R.checked_div ⟨1, 2⟩ ⟨1, 3⟩ = some r →
        (⟨1, 3⟩ : R) ≠ R.zero ∧ r.wf ∧ r.val = (⟨1, 2⟩ : R).val / (⟨1, 3⟩ : R).val) ∧
     (R.checked_div ⟨1, 2⟩ ⟨1, 2⟩ = none ↔ (⟨1, 2⟩ : R) = R.zero) ∧
     ((⟨1, 2⟩ : R) ≠ R.zero → R.checked_div ⟨1, 2⟩ ⟨1, 2⟩ = some R.one)) :=
  ⟨⟨by decide, by decide⟩, claim_C5 ⟨1, 2⟩ ⟨1, 3⟩ (by decide) (by decide)⟩

/-- **C6.** `add`, `sub` and `mul` are exact: any produced result is reduced,
in range, and denotes the exact rational sum/difference/product (so overflow
can only surface as `none`, never as a wrapped value); when `sub(a,b)` and the
subsequent `add` both succeed, `add(sub(a,b),b) = a`; and `mul(a, 0/1) = 0/1`
always (rational.rs lines 33–35). -/
theorem claim_C6 (a b : R) (ha : a.wf) (hb : b.wf) :
    (∀ r, R.checked_add a b = some r → r.wf ∧ r.val = a.val + b.val) ∧
    (∀ r, R.checked_sub a b = some r → r.wf ∧ r.val = a.val - b.val) ∧
    (∀ r, R.checked_mul a b = some r → r.wf ∧ r.val = a.val * b.val) ∧
    (∀ c r, R.checked_sub a b = some c → R.checked_add c b = some r → r = a) ∧
    R.checked_mul a R.zero = some R.zero := by
  refine ⟨fun r h => checked_add_spec ha hb h, fun r h => checked_sub_spec ha hb h,
    fun r h => checked_mul_spec ha hb h, ?_, checked_mul_zero ha⟩
  intro c r hc hr
  obtain ⟨hcw, hcv⟩ := checked_sub_spec ha hb hc
  obtain ⟨hrw, hrv⟩ := checked_add_spec hcw hb hr
  apply val_inj hrw ha
  rw [hrv, hcv]
  ring

/-- Witness for C6 at `a = 1/2`, `b = 1/3`. -/
theorem claim_C6_witness :
    ((⟨1, 2⟩ : R).wf ∧ (⟨1, 3⟩ : R).wf) ∧
    ((∀ r, R.checked_add ⟨1, 2⟩ ⟨1, 3⟩ = some r →
        r.wf ∧ r.val = (⟨1, 2⟩ : R).val + (⟨1, 3⟩ : R).val) ∧
     (∀ r, R.checked_sub ⟨1, 2⟩ ⟨1, 3⟩ = some r →
        r.wf ∧ r.val = (⟨1, 2⟩ : R).val - (⟨1, 3⟩ : R).val) ∧
     (∀ r, R.checked_mul ⟨1, 2⟩ ⟨1, 3⟩ = some r →
        r.wf ∧ r.val = (⟨1, 2⟩ : R).val * (⟨1, 3⟩ : R).val) ∧
     (∀ c r, R.checked_sub ⟨1, 2⟩ ⟨1, 3⟩ = some c →
        R.checked_add c ⟨1, 3⟩ = some r → r = ⟨1, 2⟩) ∧
     R.checked_mul ⟨1, 2⟩ R.zero = some R.zero) :=
  ⟨⟨by decide, by decide⟩, claim_C6 ⟨1, 2⟩ ⟨1, 3⟩ (by decide) (by decide)⟩

theorem ite_unit_eq_some {c : Prop} [Decidable c] :
    ((if c then some () else none) = some ()) ↔ c := by
  split
  · simpa
  · simpa

/-- **C7.** Each comparison primitive returns the unit payload exactly when
the numeric relation holds between the two rationals, and no result otherwise
(rational.rs lines 100–103). -/
theorem claim_C7 (a b : R) (ha : a.wf) (hb : b.wf) :
    (R.ltP a b = some () ↔ a.val < b.val) ∧
    (R.gtP a b = some () ↔ b.val < a.val) ∧
    (R.leP a b = some () ↔ a.val ≤ b.val) ∧
    (R.geP a b = some () ↔ b.val ≤ a.val) := by
  obtain ⟨hadp, -, -, -⟩ := ha
  obtain ⟨hbdp, -, -, -⟩ := hb
  refine ⟨?_, ?_, ?_, ?_⟩
  · rw [R.ltP, ite_unit_eq_some, lt_iff_val hadp hbdp]
  · rw [R.gtP, ite_unit_eq_some, lt_iff_val hbdp hadp]
  · rw [R.leP, ite_unit_eq_some, le_iff_val hadp hbdp]
  · rw [R.geP, ite_unit_eq_some, le_iff_val hbdp hadp]

/-- Witness for C7 at `1/2` and `3/4` (`<` succeeds one way, fails the
other). -/
theorem claim_C7_witness :
    ((⟨1, 2⟩ : R).wf ∧ (⟨3, 4⟩ : R).wf) ∧
    ((R.ltP ⟨1, 2⟩ ⟨3, 4⟩ = some () ↔ (⟨1, 2⟩ : R).val < (⟨3, 4⟩ : R).val) ∧
     (R.gtP ⟨1, 2⟩ ⟨3, 4⟩ = some () ↔ (⟨3, 4⟩ : R).val < (⟨1, 2⟩ : R).val) ∧
     (R.leP ⟨1, 2⟩ ⟨3, 4⟩ = some () ↔ (⟨1, 2⟩ : R).val ≤ (⟨3, 4⟩ : R).val) ∧
     (R.geP ⟨1, 2⟩ ⟨3, 4⟩ = some () ↔ (⟨3, 4⟩ : R).val ≤ (⟨1, 2⟩ : R).val)) :=
  ⟨⟨by decide, by decide⟩, claim_C7 ⟨1, 2⟩ ⟨3, 4⟩ (by decide) (by decide)⟩

/-- `neg` on a well-formed input: a result exists iff the numerator is not
`i64::MIN`, and any result is the exact negation, well-formed. -/
theorem neg_spec {a : R} (ha : a.wf) :
    ((R.neg a).isSome ↔ a.numer ≠ i64Min) ∧
    (∀ r, R.neg a = some r → r.wf ∧ r.val = -a.val) := by
  obtain ⟨hadp, hag, hafn, hafd⟩ := ha
  have hbound : fitsI64 (-a.numer) ↔ a.numer ≠ i64Min := by
    rw [fitsI64_iff] at hafn ⊢
    unfold i64Min
    omega
  constructor
  · rw [R.neg]
    by_cases hf : fitsI64 (-a.numer)
    · rw [checkedI64_of_fits hf]
      simpa using hbound.mp hf
    · rw [show checkedI64 (-a.numer) = none from if_neg hf]
      simpa using fun he => hf (hbound.mpr he)
  · intro r hr
    simp only [R.neg, Option.bind_eq_bind, Option.bind_eq_some, Option.some.injEq] at hr
    obtain ⟨m, hm, hr⟩ := hr
    obtain ⟨hfm, hmeq⟩ := checkedI64_some hm
    subst hr
    refine ⟨⟨hadp, ?_, by rw [hmeq]; exact hfm, hafd⟩, ?_⟩
    · show Int.gcd m a.denom = 1
      rw [hmeq, Int.neg_gcd]
      exact hag
    · show ((m : ℤ) : ℚ) / _ = _
      rw [hmeq, R.val]
      push_cast
      rw [neg_div]

/-- **C9 (amended).** `min` and `max` are total and return the smaller/larger
argument; `neg` and `abs` return a result exactly when the numerator is not
`i64::MIN` (there the `i64` negation overflows), and any result is the exact
negation / absolute value (rational.rs lines 38–41). -/
theorem claim_C9 (a b : R) (ha : a.wf) (hb : b.wf) :
    ((R.minR a b = a ∨ R.minR a b = b) ∧ (R.minR a b).val = min a.val b.val) ∧
    ((R.maxR a b = a ∨ R.maxR a b = b) ∧ (R.maxR a b).val = max a.val b.val) ∧
    ((R.neg a).isSome ↔ a.numer ≠ i64Min) ∧
    (∀ r, R.neg a = some r → r.wf ∧ r.val = -a.val) ∧
    ((R.abs a).isSome ↔ a.numer ≠ i64Min) ∧
    (∀ r, R.abs a = some r → r.wf ∧ r.val = |a.val|) := by
  have hadp := ha.1
  have hbdp := hb.1
  have hlt := lt_iff_val (a := b) (b := a) hbdp hadp
  have hneg := neg_spec ha
  have hnegval : a.isNegative ↔ a.val < 0 := by
    rw [R.isNegative, R.val]
    constructor
    · rintro (⟨hn, -⟩ | ⟨-, hd⟩)
      · apply div_neg_of_neg_of_pos
        · exact_mod_cast hn
        · exact_mod_cast hadp
      · omega
    · intro hv
      left
      refine ⟨?_, hadp⟩
      by_contra hge
      push_neg at hge
      have : (0 : ℚ) ≤ (a.numer : ℚ) / (a.denom : ℚ) :=
        div_nonneg (by exact_mod_cast hge) (by exact_mod_cast hadp.le)
      linarith
  refine ⟨⟨?_, ?_⟩, ⟨?_, ?_⟩, hneg.1, hneg.2, ?_, ?_⟩
  · rw [R.minR]; split
    · exact Or.inr rfl
    · exact Or.inl rfl
  · rw [R.minR]; split
    · rename_i hba
      rw [min_eq_right (le_of_lt (hlt.mp hba))]
    · rename_i hba
      rw [min_eq_left (le_of_not_lt (fun hv => hba (hlt.mpr hv)))]
  · rw [R.maxR]; split
    · exact Or.inl rfl
    · exact Or.inr rfl
  · rw [R.maxR]; split
    · rename_i hba
      rw [max_eq_left (le_of_lt (hlt.mp hba))]
    · rename_i hba
      rw [max_eq_right (le_of_not_lt (fun hv => hba (hlt.mpr hv)))]
  · rw [R.abs]
    by_cases hn : a.isNegative
    · rw [if_pos hn]
      exact hneg.1
    · rw [if_neg hn]
      simp only [Option.isSome_some, true_iff]
      intro he
      apply hn
      rw [hnegval, R.val, he]
      apply div_neg_of_neg_of_pos
      · rw [i64Min]; push_cast; norm_num
      · exact_mod_cast hadp
  · intro r hr
    rw [R.abs] at hr
    by_cases hn : a.isNegative
    · rw [if_pos hn] at hr
      obtain ⟨hw, hv⟩ := hneg.2 r hr
      refine ⟨hw, ?_⟩
      rw [hv, abs_of_neg (hnegval.mp hn)]
    · rw [if_neg hn] at hr
      have : r = a := Option.some_injective _ hr.symm
      subst this
      exact ⟨ha, by rw [abs_of_nonneg (le_of_not_lt (fun hv => hn (hnegval.mpr hv)))]⟩

theorem tmod_neg_dividend (a b : Int) : (-a).tmod b = -(a.tmod b) := by
  rw [Int.tmod_def, Int.tmod_def, Int.neg_tdiv]
  ring

theorem tmod_bounds_nonneg {t d : Int} (hd : 0 < d) (ht : 0 ≤ t) :
    0 ≤ t.tmod d ∧ t.tmod d < d :=
  ⟨Int.tmod_nonneg d ht, Int.tmod_lt_of_pos t hd⟩

theorem tmod_bounds_nonpos {t d : Int} (hd : 0 < d) (ht : t ≤ 0) :
    -d < t.tmod d ∧ t.tmod d ≤ 0 := by
  have h1 : 0 ≤ (-t).tmod d := Int.tmod_nonneg d (by omega)
  have h2 : (-t).tmod d < d := Int.tmod_lt_of_pos (-t) hd
  rw [tmod_neg_dividend] at h1 h2
  omega

theorem int_bounds_to_floor {q n d : Int} (hd : 0 < d) (h1 : d * q ≤ n)
    (h2 : n < d * (q + 1)) :
    (q : ℚ) ≤ (n : ℚ) / (d : ℚ) ∧ (n : ℚ) / (d : ℚ) < (q : ℚ) + 1 := by
  have hdq : (0 : ℚ) < (d : ℚ) := by exact_mod_cast hd
  constructor
  · rw [le_div_iff₀ hdq]
    calc (q : ℚ) * (d : ℚ) = ((d * q : ℤ) : ℚ) := by push_cast; ring
    _ ≤ (n : ℚ) := by exact_mod_cast h1
  · rw [div_lt_iff₀ hdq]
    calc (n : ℚ) < ((d * (q + 1) : ℤ) : ℚ) := by exact_mod_cast h2
    _ = ((q : ℚ) + 1) * (d : ℚ) := by push_cast; ring

theorem int_bounds_to_ceil {q n d : Int} (hd : 0 < d) (h1 : d * (q - 1) < n)
    (h2 : n ≤ d * q) :
    (n : ℚ) / (d : ℚ) ≤ (q : ℚ) ∧ (q : ℚ) - 1 < (n : ℚ) / (d : ℚ) := by
  have hdq : (0 : ℚ) < (d : ℚ) := by exact_mod_cast hd
  constructor
  · rw [div_le_iff₀ hdq]
    calc (n : ℚ) ≤ ((d * q : ℤ) : ℚ) := by exact_mod_cast h2
    _ = (q : ℚ) * (d : ℚ) := by push_cast; ring
  · rw [lt_div_iff₀ hdq]
    calc ((q : ℚ) - 1) * (d : ℚ) = ((d * (q - 1) : ℤ) : ℚ) := by push_cast; ring
    _ < (n : ℚ) := by exact_mod_cast h1

theorem lt_zero_iff {a : R} : R.lt a R.zero ↔ a.numer < 0 := by
  rw [R.lt]
  show a.numer * 1 < 0 * a.denom ↔ _
  omega

/-- `floor` fails exactly when the negative-branch numerator adjustment
overflows; any result is the integer `⌊a⌋`. -/
theorem floor_spec {a : R} (ha : a.wf) :
    (R.floor a = none ↔ R.lt a R.zero ∧ ¬fitsI64 (a.numer - a.denom)) ∧
    (∀ r, R.floor a = some r → r.wf ∧ r.denom = 1 ∧
      ((r.numer : ℚ) ≤ a.val ∧ a.val < (r.numer : ℚ) + 1)) := by
  obtain ⟨hadp, -, hafn, hafd⟩ := ha
  have hq1 : ∀ t : Int, fitsI64 t → (⟨t.tdiv a.denom, 1⟩ : R).wf := by
    intro t hft
    exact ⟨show (0 : Int) < 1 by decide, Int.gcd_one,
      fitsI64_tdiv _ hft (by omega), show fitsI64 1 by decide⟩
  by_cases hneg : R.lt a R.zero
  · have hn0 : a.numer < 0 := lt_zero_iff.mp hneg
    rw [R.floor, if_pos hneg]
    by_cases hf : fitsI64 (a.numer - a.denom)
    · have hf2 : fitsI64 (a.numer - a.denom + 1) := by
        rw [fitsI64_iff] at hf hafn ⊢
        omega
      rw [checkedI64_of_fits hf, Option.bind_eq_bind, Option.some_bind,
        checkedI64_of_fits hf2, Option.some_bind]
      constructor
      · constructor
        · intro hh
          exact Option.noConfusion hh
        · rintro ⟨-, hcontra⟩
          exact absurd hf hcontra
      · intro r hr
        have hr' : r = ⟨(a.numer - a.denom + 1).tdiv a.denom, 1⟩ :=
          (Option.some_injective _ hr).symm
        subst hr'
        refine ⟨hq1 _ hf2, rfl, ?_⟩
        set t := a.numer - a.denom + 1 with hts
        have hsum := Int.tdiv_add_tmod t a.denom
        set q := t.tdiv a.denom with hqs
        obtain ⟨hm1, hm2⟩ := tmod_bounds_nonpos hadp (show t ≤ 0 by omega)
        have hexp : a.denom * (q + 1) = a.denom * q + a.denom := by ring
        have hb1 : a.denom * q ≤ a.numer := by omega
        have hb2 : a.numer < a.denom * (q + 1) := by
          rw [hexp]
          omega
        exact int_bounds_to_floor hadp hb1 hb2
    · rw [show checkedI64 (a.numer - a.denom) = none from if_neg hf,
        Option.bind_eq_bind, Option.none_bind]
      exact ⟨by simpa using ⟨hneg, hf⟩, fun r hr => Option.noConfusion hr⟩
  · rw [R.floor, if_neg hneg]
    have hn0 : 0 ≤ a.numer := le_of_not_lt (fun hc => hneg (lt_zero_iff.mpr hc))
    constructor
    · constructor
      · intro hh
        exact Option.noConfusion hh
      · rintro ⟨hcontra, -⟩
        exact absurd hcontra hneg
    · intro r hr
      have hr' : r = ⟨a.numer.tdiv a.denom, 1⟩ := (Option.some_injective _ hr).symm
      subst hr'
      refine ⟨hq1 _ hafn, rfl, ?_⟩
      have hsum := Int.tdiv_add_tmod a.numer a.denom
      set q := a.numer.tdiv a.denom with hqs
      obtain ⟨hm1, hm2⟩ := tmod_bounds_nonneg hadp hn0
      have hexp : a.denom * (q + 1) = a.denom * q + a.denom := by ring
      have hb1 : a.denom * q ≤ a.numer := by omega
      have hb2 : a.numer < a.denom * (q + 1) := by rw [hexp]; omega
      exact int_bounds_to_floor hadp hb1 hb2

/-- `ceil` fails exactly when the nonnegative-branch numerator adjustment
overflows; any result is the integer `⌈a⌉`. -/
theorem ceil_spec {a : R} (ha : a.wf) :
    (R.ceil a = none ↔ ¬R.lt a R.zero ∧ ¬fitsI64 (a.numer + a.denom)) ∧
    (∀ r, R.ceil a = some r → r.wf ∧ r.denom = 1 ∧
      (a.val ≤ (r.numer : ℚ) ∧ (r.numer : ℚ) - 1 < a.val)) := by
  obtain ⟨hadp, -, hafn, hafd⟩ := ha
  have hq1 : ∀ t : Int, fitsI64 t → (⟨t.tdiv a.denom, 1⟩ : R).wf := by
    intro t hft
    exact ⟨show (0 : Int) < 1 by decide, Int.gcd_one,
      fitsI64_tdiv _ hft (by omega), show fitsI64 1 by decide⟩
  by_cases hneg : R.lt a R.zero
  · have hn0 : a.numer < 0 := lt_zero_iff.mp hneg
    rw [R.ceil, if_pos hneg]
    constructor
    · constructor
      · intro hh
        exact Option.noConfusion hh
      · rintro ⟨hcontra, -⟩
        exact absurd hneg hcontra
    · intro r hr
      have hr' : r = ⟨a.numer.tdiv a.denom, 1⟩ := (Option.some_injective _ hr).symm
      subst hr'
      refine ⟨hq1 _ hafn, rfl, ?_⟩
      have hsum := Int.tdiv_add_tmod a.numer a.denom
      set q := a.numer.tdiv a.denom with hqs
      obtain ⟨hm1, hm2⟩ := tmod_bounds_nonpos hadp (show a.numer ≤ 0 by omega)
      have hexp : a.denom * (q - 1) = a.denom * q - a.denom := by ring
      have hb1 : a.denom * (q - 1) < a.numer := by rw [hexp]; omega
      have hb2 : a.numer ≤ a.denom * q := by omega
      exact int_bounds_to_ceil hadp hb1 hb2
  · rw [R.ceil, if_neg hneg]
    have hn0 : 0 ≤ a.numer := le_of_not_lt (fun hc => hneg (lt_zero_iff.mpr hc))
    by_cases hf : fitsI64 (a.numer + a.denom)
    · have hf2 : fitsI64 (a.numer + a.denom - 1) := by
        rw [fitsI64_iff] at hf hafn ⊢
        omega
      rw [checkedI64_of_fits hf, Option.bind_eq_bind, Option.some_bind,
        checkedI64_of_fits hf2, Option.some_bind]
      constructor
      · constructor
        · intro hh
          exact Option.noConfusion hh
        · rintro ⟨-, hcontra⟩
          exact absurd hf hcontra
      · intro r hr
        have hr' : r = ⟨(a.numer + a.denom - 1).tdiv a.denom, 1⟩ :=
          (Option.some_injective _ hr).symm
        subst hr'
        refine ⟨hq1 _ hf2, rfl, ?_⟩
        set t := a.numer + a.denom - 1 with hts
        have hsum := Int.tdiv_add_tmod t a.denom
        set q := t.tdiv a.denom with hqs
        obtain ⟨hm1, hm2⟩ := tmod_bounds_nonneg hadp (show 0 ≤ t by omega)
        have hexp : a.denom * (q - 1) = a.denom * q - a.denom := by ring
        have hb1 : a.denom * (q - 1) < a.numer := by rw [hexp]; omega
        have hb2 : a.numer ≤ a.denom * q := by omega
        exact int_bounds_to_ceil hadp hb1 hb2
    · rw [show checkedI64 (a.numer + a.denom) = none from if_neg hf,
        Option.bind_eq_bind, Option.none_bind]
      exact ⟨by simpa using ⟨hneg, hf⟩, fun r hr => Option.noConfusion hr⟩

theorem gcd_tmod_left (n d : Int) : Int.gcd (n.tmod d) d = Int.gcd n d := by
  have hsum := Int.tdiv_add_tmod n d
  apply Nat.dvd_antisymm
  · rw [← Int.natCast_dvd_natCast]
    refine Int.dvd_gcd ?_ Int.gcd_dvd_right
    calc ((Int.gcd (n.tmod d) d : ℤ)) ∣ d * n.tdiv d + n.tmod d :=
      dvd_add (Int.gcd_dvd_right.mul_right _) Int.gcd_dvd_left
    _ = n := hsum
  · rw [← Int.natCast_dvd_natCast]
    refine Int.dvd_gcd ?_ Int.gcd_dvd_right
    calc ((Int.gcd n d : ℤ)) ∣ n - d * n.tdiv d :=
      dvd_sub Int.gcd_dvd_left (Int.gcd_dvd_right.mul_right _)
    _ = n.tmod d := by omega

/-- Unchecked `Add` on positive denominators: any result is well-formed and
denotes the exact sum. -/
theorem rawAdd_spec {a b s : R} (hadp : 0 < a.denom) (hbdp : 0 < b.denom)
    (hafd : fitsI64 a.denom) (h : R.rawAdd a b = some s) :
    s.wf ∧ s.val = a.val + b.val := by
  rw [R.rawAdd] at h
  by_cases hdd : a.denom = b.denom
  · rw [if_pos hdd, Option.bind_eq_bind, Option.bind_eq_some] at h
    obtain ⟨n, hn, hres⟩ := h
    obtain ⟨hfn, hneq⟩ := checkedI64_some hn
    rw [← hneq] at hfn
    have hres' : Ratio.new n a.denom = s := Option.some_injective _ hres
    obtain ⟨hwf, hval⟩ := Ratio.new_spec hadp hfn hafd
    rw [hres'] at hwf hval
    refine ⟨hwf, ?_⟩
    rw [hval, hneq, R.val, R.val, hdd]
    push_cast
    rw [div_add_div_same]
  · rw [if_neg hdd] at h
    simp only [lcmI64, Option.bind_eq_bind, Option.bind_assoc, Option.bind_eq_some] at h
    obtain ⟨p, hp, lcm, hlcm, l, hl, rr, hrr, n, hn, hres⟩ := h
    obtain ⟨u, v, hau, hbv, htu, htv, -, hg⟩ :=
      gcd_split (x := a.denom) (y := b.denom) (Or.inl (by omega))
    obtain ⟨hfp, hpeq⟩ := checkedI64_some hp
    rw [htv] at hpeq
    have hupos : 0 < u := by
      rcases mul_pos_iff.mp (hau ▸ hadp) with ⟨-, h'⟩ | ⟨h', -⟩
      · exact h'
      · omega
    have hvpos : 0 < v := by
      rcases mul_pos_iff.mp (hbv ▸ hbdp) with ⟨-, h'⟩ | ⟨h', -⟩
      · exact h'
      · omega
    have hppos : 0 < p := by
      rw [hpeq]
      exact mul_pos hadp hvpos
    obtain ⟨hflcm, hlcmeq⟩ := checkedI64_some hlcm
    rw [← hlcmeq] at hflcm
    rw [abs_of_pos hppos] at hlcmeq
    rw [hpeq] at hlcmeq
    have hlcmpos : 0 < lcm := by
      rw [hlcmeq]
      exact mul_pos hadp hvpos
    have hta : lcm.tdiv a.denom = v :=
      Int.tdiv_eq_of_eq_mul_right (by omega) (by linear_combination hlcmeq)
    have htb : lcm.tdiv b.denom = u :=
      Int.tdiv_eq_of_eq_mul_right (by omega)
        (by linear_combination hlcmeq + v * hau - u * hbv)
    obtain ⟨hfl, hleq⟩ := checkedI64_some hl
    obtain ⟨hfr, hreq⟩ := checkedI64_some hrr
    obtain ⟨hfn, hneq⟩ := checkedI64_some hn
    rw [← hneq] at hfn
    rw [hta] at hleq
    rw [htb] at hreq
    rw [hleq, hreq] at hneq
    have hres' : Ratio.new n lcm = s := Option.some_injective _ hres
    obtain ⟨hwf, hval⟩ := Ratio.new_spec hlcmpos hfn hflcm
    rw [hres'] at hwf hval
    refine ⟨hwf, ?_⟩
    rw [hval, hneq]
    have hnq : ((a.numer * v + b.numer * u : ℤ) : ℚ) =
        (v : ℚ) * (a.numer : ℚ) + (u : ℚ) * (b.numer : ℚ) := by push_cast; ring
    have hlint : lcm = u * ((Int.gcd a.denom b.denom : ℤ) * v) := by
      linear_combination hlcmeq + v * hau
    have hlq : ((lcm : ℤ) : ℚ) =
        (u : ℚ) * (((Int.gcd a.denom b.denom : ℤ) : ℚ) * (v : ℚ)) := by
      exact_mod_cast hlint
    have haq : ((a.denom : ℤ) : ℚ) = ((Int.gcd a.denom b.denom : ℤ) : ℚ) * (u : ℚ) := by
      exact_mod_cast hau
    have hbq : ((b.denom : ℤ) : ℚ) = ((Int.gcd a.denom b.denom : ℤ) : ℚ) * (v : ℚ) := by
      exact_mod_cast hbv
    rw [R.val, R.val, hnq, hlq, haq, hbq]
    exact add_frac_eq (by exact_mod_cast hg.ne') (by exact_mod_cast hupos.ne')
      (by exact_mod_cast hvpos.ne')

/-- Unchecked `Sub` on positive denominators: any result is well-formed and
denotes the exact difference. -/
theorem rawSub_spec {a b s : R} (hadp : 0 < a.denom) (hbdp : 0 < b.denom)
    (hafd : fitsI64 a.denom) (h : R.rawSub a b = some s) :
    s.wf ∧ s.val = a.val - b.val := by
  rw [R.rawSub] at h
  by_cases hdd : a.denom = b.denom
  · rw [if_pos hdd, Option.bind_eq_bind, Option.bind_eq_some] at h
    obtain ⟨n, hn, hres⟩ := h
    obtain ⟨hfn, hneq⟩ := checkedI64_some hn
    rw [← hneq] at hfn
    have hres' : Ratio.new n a.denom = s := Option.some_injective _ hres
    obtain ⟨hwf, hval⟩ := Ratio.new_spec hadp hfn hafd
    rw [hres'] at hwf hval
    refine ⟨hwf, ?_⟩
    rw [hval, hneq, R.val, R.val, hdd]
    push_cast
    rw [div_sub_div_same]
  · rw [if_neg hdd] at h
    simp only [lcmI64, Option.bind_eq_bind, Option.bind_assoc, Option.bind_eq_some] at h
    obtain ⟨p, hp, lcm, hlcm, l, hl, rr, hrr, n, hn, hres⟩ := h
    obtain ⟨u, v, hau, hbv, htu, htv, -, hg⟩ :=
      gcd_split (x := a.denom) (y := b.denom) (Or.inl (by omega))
    obtain ⟨hfp, hpeq⟩ := checkedI64_some hp
    rw [htv] at hpeq
    have hupos : 0 < u := by
      rcases mul_pos_iff.mp (hau ▸ hadp) with ⟨-, h'⟩ | ⟨h', -⟩
      · exact h'
      · omega
    have hvpos : 0 < v := by
      rcases mul_pos_iff.mp (hbv ▸ hbdp) with ⟨-, h'⟩ | ⟨h', -⟩
      · exact h'
      · omega
    have hppos : 0 < p := by
      rw [hpeq]
      exact mul_pos hadp hvpos
    obtain ⟨hflcm, hlcmeq⟩ := checkedI64_some hlcm
    rw [← hlcmeq] at hflcm
    rw [abs_of_pos hppos] at hlcmeq
    rw [hpeq] at hlcmeq
    have hlcmpos : 0 < lcm := by
      rw [hlcmeq]
      exact mul_pos hadp hvpos
    have hta : lcm.tdiv a.denom = v :=
      Int.tdiv_eq_of_eq_mul_right (by omega) (by linear_combination hlcmeq)
    have htb : lcm.tdiv b.denom = u :=
      Int.tdiv_eq_of_eq_mul_right (by omega)
        (by linear_combination hlcmeq + v * hau - u * hbv)
    obtain ⟨hfl, hleq⟩ := checkedI64_some hl
    obtain ⟨hfr, hreq⟩ := checkedI64_some hrr
    obtain ⟨hfn, hneq⟩ := checkedI64_some hn
    rw [← hneq] at hfn
    rw [hta] at hleq
    rw [htb] at hreq
    rw [hleq, hreq] at hneq
    have hres' : Ratio.new n lcm = s := Option.some_injective _ hres
    obtain ⟨hwf, hval⟩ := Ratio.new_spec hlcmpos hfn hflcm
    rw [hres'] at hwf hval
    refine ⟨hwf, ?_⟩
    rw [hval, hneq]
    have hnq : ((a.numer * v - b.numer * u : ℤ) : ℚ) =
        (v : ℚ) * (a.numer : ℚ) - (u : ℚ) * (b.numer : ℚ) := by push_cast; ring
    have hlint : lcm = u * ((Int.gcd a.denom b.denom : ℤ) * v) := by
      linear_combination hlcmeq + v * hau
    have hlq : ((lcm : ℤ) : ℚ) =
        (u : ℚ) * (((Int.gcd a.denom b.denom : ℤ) : ℚ) * (v : ℚ)) := by
      exact_mod_cast hlint
    have haq : ((a.denom : ℤ) : ℚ) = ((Int.gcd a.denom b.denom : ℤ) : ℚ) * (u : ℚ) := by
      exact_mod_cast hau
    have hbq : ((b.denom : ℤ) : ℚ) = ((Int.gcd a.denom b.denom : ℤ) : ℚ) * (v : ℚ) := by
      exact_mod_cast hbv
    rw [R.val, R.val, hnq, hlq, haq, hbq]
    exact sub_frac_eq (by exact_mod_cast hg.ne') (by exact_mod_cast hupos.ne')
      (by exact_mod_cast hvpos.ne')

/-- `trunc` rounds toward zero: bounds on the produced integer. -/
theorem trunc_bounds {s : R} (hs : s.wf) :
    s.trunc.denom = 1 ∧ s.trunc.wf ∧
    ((0 : ℚ) ≤ s.val → ((s.trunc.numer : ℚ) ≤ s.val ∧ s.val < (s.trunc.numer : ℚ) + 1)) ∧
    (s.val ≤ 0 → ((s.trunc.numer : ℚ) - 1 < s.val ∧ s.val ≤ (s.trunc.numer : ℚ))) := by
  obtain ⟨hdp, -, hfn, hfd⟩ := hs
  have hsum := Int.tdiv_add_tmod s.numer s.denom
  have hwf : s.trunc.wf :=
    ⟨show (0 : Int) < 1 by decide, Int.gcd_one,
      fitsI64_tdiv _ hfn (by omega), show fitsI64 1 by decide⟩
  refine ⟨rfl, hwf, ?_, ?_⟩
  · intro hv
    have hn0 : 0 ≤ s.numer := by
      by_contra hc
      push_neg at hc
      have : s.val < 0 := by
        rw [R.val]
        apply div_neg_of_neg_of_pos
        · exact_mod_cast hc
        · exact_mod_cast hdp
      linarith
    have hsum := Int.tdiv_add_tmod s.numer s.denom
    set q := s.numer.tdiv s.denom with hqs
    obtain ⟨hm1, hm2⟩ := tmod_bounds_nonneg hdp hn0
    have hexp : s.denom * (q + 1) = s.denom * q + s.denom := by ring
    have hb1 : s.denom * q ≤ s.numer := by omega
    have hb2 : s.numer < s.denom * (q + 1) := by rw [hexp]; omega
    exact int_bounds_to_floor hdp hb1 hb2
  · intro hv
    have hn0 : s.numer ≤ 0 := by
      by_contra hc
      push_neg at hc
      have : 0 < s.val := by
        rw [R.val]
        apply div_pos
        · exact_mod_cast hc
        · exact_mod_cast hdp
      linarith
    have hsum := Int.tdiv_add_tmod s.numer s.denom
    set q := s.numer.tdiv s.denom with hqs
    obtain ⟨hm1, hm2⟩ := tmod_bounds_nonpos hdp hn0
    have hexp : s.denom * (q - 1) = s.denom * q - s.denom := by ring
    have hb1 : s.denom * (q - 1) < s.numer := by rw [hexp]; omega
    have hb2 : s.numer ≤ s.denom * q := by omega
    obtain ⟨hc1, hc2⟩ := int_bounds_to_ceil hdp hb1 hb2
    exact ⟨hc2, hc1⟩

/-- `Ratio::new` on an already-reduced pair is the identity. -/
theorem Ratio.new_of_coprime {nm d : Int} (hd : 0 < d) (hg : Int.gcd nm d = 1) :
    Ratio.new nm d = ⟨nm, d⟩ := by
  rw [Ratio.new]
  by_cases h0 : nm = 0
  · subst h0
    rw [if_pos rfl]
    have : d.natAbs = 1 := by simpa [Int.gcd] using hg
    have : d = 1 := by omega
    rw [this]
  · rw [if_neg h0, hg]
    simp only [Nat.cast_one, Int.tdiv_one]
    rw [if_neg (by omega)]

theorem val_half : half.val = 1 / 2 := by
  rw [half, R.val]
  norm_num

theorem wf_half : half.wf := by decide

/-- An integer exactly half away from a reduced rational forces denominator 2. -/
theorem half_dist_strict {a : R} (ha : a.wf) {q : Int}
    (hle : |(q : ℚ) - a.val| ≤ 1 / 2) (hd2 : a.denom ≠ 2) :
    |(q : ℚ) - a.val| < 1 / 2 := by
  rcases lt_or_eq_of_le hle with hlt | heq
  · exact hlt
  have habs := (abs_eq (by norm_num : (0:ℚ) ≤ 1/2)).mp heq
  exfalso
  rcases habs with hcase | hcase
  · -- a.val = q - 1/2 = (2q - 1)/2
    have hval : a.val = ((2 * q - 1 : ℤ) : ℚ) / ((2 : ℤ) : ℚ) := by
      push_cast
      linarith
    have hg : Int.gcd (2 * q - 1) 2 = 1 :=
      Int.gcd_eq_one_iff_coprime.mpr ⟨-1, q, by ring⟩
    have heqa : a = ⟨2 * q - 1, 2⟩ :=
      val_inj' ha.1 ha.2.1 (show (0:Int) < 2 by decide) hg hval
    exact hd2 (by rw [heqa])
  · -- a.val = q + 1/2 = (2q + 1)/2
    have hval : a.val = ((2 * q + 1 : ℤ) : ℚ) / ((2 : ℤ) : ℚ) := by
      push_cast
      linarith
    have hg : Int.gcd (2 * q + 1) 2 = 1 :=
      Int.gcd_eq_one_iff_coprime.mpr ⟨1, -q, by ring⟩
    have heqa : a = ⟨2 * q + 1, 2⟩ :=
      val_inj' ha.1 ha.2.1 (show (0:Int) < 2 by decide) hg hval
    exact hd2 (by rw [heqa])

theorem int_squeeze {x y : Int} (h1 : (x : ℚ) ≤ (y : ℚ)) (h2 : (y : ℚ) < (x : ℚ) + 1) :
    x = y := by
  have h1' : x ≤ y := by exact_mod_cast h1
  have h2' : y < x + 1 := by exact_mod_cast h2
  omega

/-- The final branch of `round`: once the half-or-larger flag is known (true
iff the absolute fractional part is at least one half), any result is an
integer within one half of the value, and ties (denominator 2) go to the
neighbour away from zero. -/
theorem round_tail_spec {a r : R} (ha : a.wf) (hol : Bool)
    (hhol : hol = true ↔ a.denom ≤ 2 * ((a.numer.tmod a.denom).natAbs : ℤ))
    (h : (if hol then
            if R.le R.zero a then do
              let s ← R.rawAdd a half
              some s.trunc
            else do
              let s ← R.rawSub a half
              some s.trunc
          else some a.trunc) = some r) :
    r.wf ∧ r.denom = 1 ∧
    |(r.numer : ℚ) - a.val| ≤ 1 / 2 ∧
    (a.denom ≠ 2 → |(r.numer : ℚ) - a.val| < 1 / 2) ∧
    (a.denom = 2 →
      (0 < a.numer → (r.numer : ℚ) = a.val + 1 / 2) ∧
      (a.numer < 0 → (r.numer : ℚ) = a.val - 1 / 2)) := by
  have hadp := ha.1
  have hag := ha.2.1
  have hadq : (0 : ℚ) < (a.denom : ℚ) := by exact_mod_cast hadp
  have hsum := Int.tdiv_add_tmod a.numer a.denom
  set m := a.numer.tmod a.denom with hms
  set q0 := a.numer.tdiv a.denom with hq0s
  have hnq : ((a.numer : ℤ) : ℚ) = (a.denom : ℚ) * (q0 : ℚ) + (m : ℚ) := by
    exact_mod_cast hsum.symm
  have hv : a.val = (q0 : ℚ) + (m : ℚ) / (a.denom : ℚ) := by
    rw [R.val, hnq, add_div, mul_div_cancel_left₀ _ hadq.ne']
  cases hol with
  | false =>
    have hlt2 : 2 * ((m.natAbs : ℕ) : ℤ) < a.denom := by
      have := hhol
      simp only [Bool.false_eq_true, false_iff, not_le] at this
      exact this
    rw [if_neg (by simp)] at h
    have hr : r = a.trunc := (Option.some_injective _ h).symm
    subst hr
    obtain ⟨htd, htw, htf, -⟩ := trunc_bounds ha
    have hqn : a.trunc.numer = q0 := rfl
    have habs : |(a.trunc.numer : ℚ) - a.val| = |(m : ℚ)| / (a.denom : ℚ) := by
      rw [hqn, hv, show (q0 : ℚ) - ((q0 : ℚ) + (m : ℚ) / (a.denom : ℚ)) =
        -((m : ℚ) / (a.denom : ℚ)) by ring, abs_neg, abs_div, abs_of_pos hadq]
    have hstrict : |(a.trunc.numer : ℚ) - a.val| < 1 / 2 := by
      rw [habs, div_lt_div_iff₀ hadq (by norm_num : (0:ℚ) < 2)]
      have hint : |m| * 2 < 1 * a.denom := by
        rw [Int.abs_eq_natAbs]
        omega
      calc |(m : ℚ)| * 2 = ((|m| * 2 : ℤ) : ℚ) := by push_cast; ring
      _ < ((1 * a.denom : ℤ) : ℚ) := by exact_mod_cast hint
      _ = 1 * (a.denom : ℚ) := by push_cast; ring
    refine ⟨htw, htd, le_of_lt hstrict, fun _ => hstrict, ?_⟩
    intro hd2
    exfalso
    have hm0 : m = 0 := by omega
    rw [hd2] at hsum
    have hdvd : (2 : ℤ) ∣ a.numer := ⟨q0, by omega⟩
    have h21 : (2 : ℤ) ∣ ((Int.gcd a.numer a.denom : ℕ) : ℤ) :=
      Int.dvd_gcd hdvd (by rw [hd2])
    rw [hag] at h21
    norm_num at h21
  | true =>
    have hge : a.denom ≤ 2 * ((m.natAbs : ℕ) : ℤ) := hhol.mp rfl
    rw [if_pos rfl] at h
    by_cases hpos : R.le R.zero a
    · rw [if_pos hpos] at h
      simp only [Option.bind_eq_bind, Option.bind_eq_some, Option.some.injEq] at h
      obtain ⟨s, hs, hrs⟩ := h
      obtain ⟨hsw, hsv⟩ := rawAdd_spec hadp (by decide) ha.2.2.2 hs
      rw [val_half] at hsv
      have hn0 : 0 ≤ a.numer := by
        have h' : (0 : ℤ) * a.denom ≤ a.numer * 1 := hpos
        omega
      obtain ⟨hm0, hmlt⟩ := tmod_bounds_nonneg hadp hn0
      have hv0 : (0 : ℚ) ≤ a.val :=
        div_nonneg (by exact_mod_cast hn0) hadq.le
      obtain ⟨-, htw, htf, -⟩ := trunc_bounds hsw
      obtain ⟨hb1, hb2⟩ := htf (by rw [hsv]; linarith)
      rw [hsv] at hb1 hb2
      rw [← hrs]
      have hle : |(s.trunc.numer : ℚ) - a.val| ≤ 1 / 2 :=
        abs_le.mpr ⟨by linarith, by linarith⟩
      refine ⟨htw, rfl, hle, fun hd2 => half_dist_strict ha hle hd2, ?_⟩
      intro hd2
      have hm1 : m = 1 := by omega
      have hexact : a.val + 1 / 2 = ((q0 + 1 : ℤ) : ℚ) := by
        rw [hv, hd2, hm1]
        push_cast
        ring
      have hqq : s.trunc.numer = q0 + 1 := by
        apply int_squeeze
        · rw [← hexact]; exact hb1
        · rw [← hexact]; exact hb2
      constructor
      · intro _
        rw [hqq, hexact]
      · intro hneg
        omega
    · rw [if_neg hpos] at h
      simp only [Option.bind_eq_bind, Option.bind_eq_some, Option.some.injEq] at h
      obtain ⟨s, hs, hrs⟩ := h
      obtain ⟨hsw, hsv⟩ := rawSub_spec hadp (by decide) ha.2.2.2 hs
      rw [val_half] at hsv
      have hn0 : a.numer < 0 := by
        by_contra hc
        push_neg at hc
        exact hpos (show (0 : ℤ) * a.denom ≤ a.numer * 1 by omega)
      obtain ⟨hmgt, hm0⟩ := tmod_bounds_nonpos hadp (show a.numer ≤ 0 by omega)
      have hv0 : a.val < 0 :=
        div_neg_of_neg_of_pos (by exact_mod_cast hn0) hadq
      obtain ⟨-, htw, -, htc⟩ := trunc_bounds hsw
      obtain ⟨hb1, hb2⟩ := htc (by rw [hsv]; linarith)
      rw [hsv] at hb1 hb2
      rw [← hrs]
      have hle : |(s.trunc.numer : ℚ) - a.val| ≤ 1 / 2 :=
        abs_le.mpr ⟨by linarith, by linarith⟩
      refine ⟨htw, rfl, hle, fun hd2 => half_dist_strict ha hle hd2, ?_⟩
      intro hd2
      have hm1 : m = -1 := by omega
      have hexact : a.val - 1 / 2 = ((q0 - 1 : ℤ) : ℚ) := by
        rw [hv, hd2, hm1]
        push_cast
        ring
      have hqq : s.trunc.numer = q0 - 1 := by
        symm
        apply int_squeeze (x := q0 - 1)
        · rw [← hexact]; linarith
        · rw [← hexact]
          linarith
      constructor
      · intro hposn
        omega
      · intro _
        rw [hqq, hexact]

/-- Evaluating `0/1 - m/d` (the fractional-part negation inside `round`) for
a reduced negative fractional part: no step overflows and the result is
`(-m)/d`. -/
theorem rawSub_zero_eval {m d : Int} (hd : 0 < d) (hd1 : d ≠ 1) (hfd : fitsI64 d)
    (hm1 : -d < m) (hm2 : m < 0) (hg : Int.gcd m d = 1) :
    R.rawSub ⟨0, 1⟩ ⟨m, d⟩ = some ⟨-m, d⟩ := by
  have hfm : fitsI64 m := by
    rw [fitsI64_iff] at hfd ⊢
    omega
  have hfnm : fitsI64 (-m) := by
    rw [fitsI64_iff] at hfd ⊢
    omega
  rw [R.rawSub]
  rw [if_neg (show ¬((⟨0, 1⟩ : R).denom = (⟨m, d⟩ : R).denom) from
    fun hh => hd1 (by exact hh.symm))]
  show (do
    let lcm ← lcmI64 1 d
    let l ← checkedI64 (0 * (lcm.tdiv 1))
    let rr ← checkedI64 (m * (lcm.tdiv d))
    let n ← checkedI64 (l - rr)
    some (Ratio.new n lcm)) = some (⟨-m, d⟩ : R)
  simp only [lcmI64, Int.one_gcd, Nat.cast_one, Int.tdiv_one, one_mul, zero_mul,
    checkedI64_of_fits hfd, abs_of_pos hd, Option.bind_eq_bind, Option.some_bind,
    Int.tdiv_self (show d ≠ 0 by omega), mul_one,
    checkedI64_of_fits (show fitsI64 0 by decide), checkedI64_of_fits hfm, zero_sub,
    checkedI64_of_fits hfnm]
  rw [Ratio.new_of_coprime hd (by rw [Int.neg_gcd]; exact hg)]

theorem fract_lt_zero_iff {a : R} :
    R.lt a.fract R.zero ↔ a.numer.tmod a.denom < 0 := by
  show a.numer.tmod a.denom * 1 < 0 * a.denom ↔ _
  omega

/-- `round` on a well-formed input: any result is an integer within one half
of the value; off a tie it is the unique nearest integer, and on a tie
(denominator 2) it is the neighbour away from zero. -/
theorem round_spec {a r : R} (ha : a.wf) (h : R.round a = some r) :
    r.wf ∧ r.denom = 1 ∧
    |(r.numer : ℚ) - a.val| ≤ 1 / 2 ∧
    (a.denom ≠ 2 → |(r.numer : ℚ) - a.val| < 1 / 2) ∧
    (a.denom = 2 →
      (0 < a.numer → (r.numer : ℚ) = a.val + 1 / 2) ∧
      (a.numer < 0 → (r.numer : ℚ) = a.val - 1 / 2)) := by
  obtain ⟨hadp, hag, hafn, hafd⟩ := ha
  have hwfa : a.wf := ⟨hadp, hag, hafn, hafd⟩
  rw [R.round] at h
  set m := a.numer.tmod a.denom with hms
  have hgm : Int.gcd m a.denom = 1 := by
    rw [hms, gcd_tmod_left]
    exact hag
  by_cases hmneg : m < 0
  · -- negative fractional part: it is negated through a Sub
    rw [if_pos (fract_lt_zero_iff.mpr hmneg)] at h
    have hd1 : a.denom ≠ 1 := by
      intro h1
      have : m = 0 := by rw [hms, h1, Int.tmod_one]
      omega
    have hnum_nonpos : a.numer ≤ 0 := by
      by_contra hc
      push_neg at hc
      have := Int.tmod_nonneg a.denom (le_of_lt hc)
      omega
    have hmgt : -a.denom < m := (tmod_bounds_nonpos hadp hnum_nonpos).1
    have heval := rawSub_zero_eval hadp hd1 hafd hmgt hmneg hgm
    rw [show R.zero = (⟨0, 1⟩ : R) from rfl,
      show a.fract = (⟨m, a.denom⟩ : R) from rfl, heval] at h
    simp only [Option.bind_eq_bind, Option.some_bind] at h
    by_cases heven : a.denom.tmod 2 = 0
    · rw [if_pos (show (⟨-m, a.denom⟩ : R).denom.tmod 2 = 0 from heven)] at h
      refine round_tail_spec hwfa _ ?_ h
      rw [decide_eq_true_iff]
      show a.denom.tdiv 2 ≤ -m ↔ a.denom ≤ 2 * ((m.natAbs : ℕ) : ℤ)
      obtain ⟨e, he⟩ := Int.dvd_of_tmod_eq_zero heven
      rw [Int.tdiv_eq_of_eq_mul_right (by norm_num) he]
      omega
    · rw [if_neg (show ¬(⟨-m, a.denom⟩ : R).denom.tmod 2 = 0 from heven)] at h
      by_cases hfit : fitsI64 (-m * 2)
      · rw [show checkedI64 ((⟨-m, a.denom⟩ : R).numer * 2) = some (-m * 2) from
          checkedI64_of_fits hfit] at h
        simp only [Option.bind_eq_bind, Option.some_bind] at h
        refine round_tail_spec hwfa _ ?_ h
        rw [decide_eq_true_iff]
        show a.denom ≤ -m * 2 ↔ a.denom ≤ 2 * ((m.natAbs : ℕ) : ℤ)
        omega
      · rw [show checkedI64 ((⟨-m, a.denom⟩ : R).numer * 2) = none from
          if_neg hfit] at h
        simp only [Option.bind_eq_bind, Option.none_bind] at h
        exact Option.noConfusion h
  · -- nonnegative fractional part: used as is
    rw [if_neg (fun hc => hmneg (fract_lt_zero_iff.mp hc))] at h
    rw [show a.fract = (⟨m, a.denom⟩ : R) from rfl] at h
    simp only [Option.bind_eq_bind, Option.some_bind] at h
    by_cases heven : a.denom.tmod 2 = 0
    · rw [if_pos (show (⟨m, a.denom⟩ : R).denom.tmod 2 = 0 from heven)] at h
      refine round_tail_spec hwfa _ ?_ h
      rw [decide_eq_true_iff]
      show a.denom.tdiv 2 ≤ m ↔ a.denom ≤ 2 * ((m.natAbs : ℕ) : ℤ)
      obtain ⟨e, he⟩ := Int.dvd_of_tmod_eq_zero heven
      rw [Int.tdiv_eq_of_eq_mul_right (by norm_num) he]
      omega
    · rw [if_neg (show ¬(⟨m, a.denom⟩ : R).denom.tmod 2 = 0 from heven)] at h
      by_cases hfit : fitsI64 (m * 2)
      · rw [show checkedI64 ((⟨m, a.denom⟩ : R).numer * 2) = some (m * 2) from
          checkedI64_of_fits hfit] at h
        simp only [Option.bind_eq_bind, Option.some_bind] at h
        refine round_tail_spec hwfa _ ?_ h
        rw [decide_eq_true_iff]
        show a.denom ≤ m * 2 ↔ a.denom ≤ 2 * ((m.natAbs : ℕ) : ℤ)
        omega
      · rw [show checkedI64 ((⟨m, a.denom⟩ : R).numer * 2) = none from
          if_neg hfit] at h
        simp only [Option.bind_eq_bind, Option.none_bind] at h
        exact Option.noConfusion h

/-- **C8 (amended).** `floor`, `ceil` and `round` can fail, but only through
`i64` overflow of their internal adjustment arithmetic at extreme inputs
(`floor` exactly when the value is negative and `numer - denom` leaves the
`i64` range, `ceil` exactly when the value is nonnegative and `numer + denom`
leaves it). Any produced result is an integer: for `floor` the greatest
integer ≤ the value, for `ceil` the least integer ≥ it (so `floor(-3/2) = -2`
and `ceil(-3/2) = -1`), and for `round` an integer within one half of the
value (rational.rs lines 42–44). -/
theorem claim_C8 (a : R) (ha : a.wf) :
    (R.floor a = none ↔ R.lt a R.zero ∧ ¬fitsI64 (a.numer - a.denom)) ∧
    (∀ r, R.floor a = some r → r.wf ∧ r.denom = 1 ∧
      ((r.numer : ℚ) ≤ a.val ∧ a.val < (r.numer : ℚ) + 1)) ∧
    (R.ceil a = none ↔ ¬R.lt a R.zero ∧ ¬fitsI64 (a.numer + a.denom)) ∧
    (∀ r, R.ceil a = some r → r.wf ∧ r.denom = 1 ∧
      (a.val ≤ (r.numer : ℚ) ∧ (r.numer : ℚ) - 1 < a.val)) ∧
    (∀ r, R.round a = some r → r.wf ∧ r.denom = 1 ∧ |(r.numer : ℚ) - a.val| ≤ 1 / 2) :=
  ⟨(floor_spec ha).1, (floor_spec ha).2, (ceil_spec ha).1, (ceil_spec ha).2,
   fun r h => ⟨(round_spec ha h).1, (round_spec ha h).2.1, (round_spec ha h).2.2.1⟩⟩

/-- Counterexample to C8 as stated: `floor` does fail — at `i64::MIN / 3`
(a well-formed value) the numerator adjustment overflows and `floor` returns
no result, where the claim promises it never fails. -/
theorem claim_C8_cex :
    (⟨i64Min, 3⟩ : R).wf ∧ R.floor ⟨i64Min, 3⟩ = none := by
  constructor
  · decide
  · decide

/-- Witness for C8 at `-3/2`. -/
theorem claim_C8_witness :
    (⟨-3, 2⟩ : R).wf ∧
    ((R.floor ⟨-3, 2⟩ = none ↔
        R.lt ⟨-3, 2⟩ R.zero ∧ ¬fitsI64 ((⟨-3, 2⟩ : R).numer - (⟨-3, 2⟩ : R).denom)) ∧
     (∀ r, R.floor ⟨-3, 2⟩ = some r → r.wf ∧ r.denom = 1 ∧
        ((r.numer : ℚ) ≤ (⟨-3, 2⟩ : R).val ∧ (⟨-3, 2⟩ : R).val < (r.numer : ℚ) + 1)) ∧
     (R.ceil ⟨-3, 2⟩ = none ↔
        ¬R.lt ⟨-3, 2⟩ R.zero ∧ ¬fitsI64 ((⟨-3, 2⟩ : R).numer + (⟨-3, 2⟩ : R).denom)) ∧
     (∀ r, R.ceil ⟨-3, 2⟩ = some r → r.wf ∧ r.denom = 1 ∧
        ((⟨-3, 2⟩ : R).val ≤ (r.numer : ℚ) ∧ (r.numer : ℚ) - 1 < (⟨-3, 2⟩ : R).val)) ∧
     (∀ r, R.round ⟨-3, 2⟩ = some r → r.wf ∧ r.denom = 1 ∧
        |(r.numer : ℚ) - (⟨-3, 2⟩ : R).val| ≤ 1 / 2)) :=
  ⟨by decide, claim_C8 ⟨-3, 2⟩ (by decide)⟩

/-- **C10 (amended).** Whenever `round` returns a result (its internal `i64`
arithmetic can overflow at extremes), the result is an integer; on a value
exactly halfway between two integers (reduced denominator 2) it is the
neighbour away from zero — one half above positive values, one half below
negative ones, so `round(1/2) = 1` and `round(-1/2) = -1` — and on every
other value it is the unique nearest integer (rational.rs line 44). -/
theorem claim_C10 (a r : R) (ha : a.wf) (h : R.round a = some r) :
    r.denom = 1 ∧
    (a.denom = 2 →
      (0 < a.numer → (r.numer : ℚ) = a.val + 1 / 2) ∧
      (a.numer < 0 → (r.numer : ℚ) = a.val - 1 / 2)) ∧
    (a.denom ≠ 2 → |(r.numer : ℚ) - a.val| < 1 / 2) :=
  ⟨(round_spec ha h).2.1, (round_spec ha h).2.2.2.2, (round_spec ha h).2.2.2.1⟩

/-- Counterexample to C10 as stated: `i64::MAX / 2` is exactly halfway
between two integers, but `round` overflows (`MAX + 1`) and returns no
result rather than the neighbouring integer the claim promises. -/
theorem claim_C10_cex :
    (⟨i64Max, 2⟩ : R).wf ∧ (⟨i64Max, 2⟩ : R).denom = 2 ∧
    R.round ⟨i64Max, 2⟩ = none := by
  refine ⟨?_, rfl, ?_⟩
  · decide
  · decide

/-- Witness for C10 at `1/2` (rounds to `1`). -/
theorem claim_C10_witness :
    ((⟨1, 2⟩ : R).wf ∧ R.round ⟨1, 2⟩ = some ⟨1, 1⟩) ∧
    ((⟨1, 1⟩ : R).denom = 1 ∧
     ((⟨1, 2⟩ : R).denom = 2 →
       (0 < (⟨1, 2⟩ : R).numer →
         ((⟨1, 1⟩ : R).numer : ℚ) = (⟨1, 2⟩ : R).val + 1 / 2) ∧
       ((⟨1, 2⟩ : R).numer < 0 →
         ((⟨1, 1⟩ : R).numer : ℚ) = (⟨1, 2⟩ : R).val - 1 / 2)) ∧
     ((⟨1, 2⟩ : R).denom ≠ 2 →
       |((⟨1, 1⟩ : R).numer : ℚ) - (⟨1, 2⟩ : R).val| < 1 / 2)) :=
  ⟨⟨by decide, by decide⟩, claim_C10 ⟨1, 2⟩ ⟨1, 1⟩ (by decide) (by decide)⟩

/-- Counterexample to C9 as stated: at numerator `i64::MIN` (a well-formed
value) both `neg` and `abs` overflow the `i64` negation and return no
result, where the claim promises they never fail. -/
theorem claim_C9_cex :
    (⟨i64Min, 1⟩ : R).wf ∧ R.neg ⟨i64Min, 1⟩ = none ∧ R.abs ⟨i64Min, 1⟩ = none := by
  refine ⟨?_, ?_, ?_⟩
  · decide
  · decide
  · decide

/-- Witness for C9 at `-3/2` and `1/2`. -/
theorem claim_C9_witness :
    ((⟨-3, 2⟩ : R).wf ∧ (⟨1, 2⟩ : R).wf) ∧
    (((R.minR ⟨-3, 2⟩ ⟨1, 2⟩ = ⟨-3, 2⟩ ∨ R.minR ⟨-3, 2⟩ ⟨1, 2⟩ = ⟨1, 2⟩) ∧
      (R.minR ⟨-3, 2⟩ ⟨1, 2⟩).val = min (⟨-3, 2⟩ : R).val (⟨1, 2⟩ : R).val) ∧
     ((R.maxR ⟨-3, 2⟩ ⟨1, 2⟩ = ⟨-3, 2⟩ ∨ R.maxR ⟨-3, 2⟩ ⟨1, 2⟩ = ⟨1, 2⟩) ∧
      (R.maxR ⟨-3, 2⟩ ⟨1, 2⟩).val = max (⟨-3, 2⟩ : R).val (⟨1, 2⟩ : R).val) ∧
     ((R.neg ⟨-3, 2⟩).isSome ↔ (⟨-3, 2⟩ : R).numer ≠ i64Min) ∧
     (∀ r, R.neg ⟨-3, 2⟩ = some r → r.wf ∧ r.val = -(⟨-3, 2⟩ : R).val) ∧
     ((R.abs ⟨-3, 2⟩).isSome ↔ (⟨-3, 2⟩ : R).numer ≠ i64Min) ∧
     (∀ r, R.abs ⟨-3, 2⟩ = some r → r.wf ∧ r.val = |(⟨-3, 2⟩ : R).val|)) :=
  ⟨⟨by decide, by decide⟩, claim_C9 ⟨-3, 2⟩ ⟨1, 2⟩ (by decide) (by decide)⟩

/-- First `checked_pow` loop (entered with a nonzero exponent): the returned
base-exponent pair has an odd exponent and denotes the same power. -/
theorem powLoop1_spec (exp : ℕ) (hne : exp ≠ 0) :
    ∀ (base b : R) (e : ℕ), base.wf → powLoop1 base exp = some (b, e) →
      b.wf ∧ e % 2 = 1 ∧ b.val ^ e = base.val ^ exp := by
  induction exp using Nat.strong_induction_on with
  | _ exp ih =>
    intro base b e hw h
    rw [powLoop1] at h
    split at h
    · rename_i hcond
      obtain ⟨h2, h0⟩ := hcond
      cases hm : R.checked_mul base base with
      | none =>
        rw [hm] at h
        exact Option.noConfusion h
      | some bb =>
        rw [hm] at h
        obtain ⟨hbbw, hbbv⟩ := checked_mul_spec hw hw hm
        obtain ⟨hbw, he, hv⟩ :=
          ih (exp / 2) (Nat.div_lt_self (Nat.pos_of_ne_zero h0) one_lt_two)
            (by omega) bb b e hbbw h
        refine ⟨hbw, he, ?_⟩
        rw [hv, hbbv, show base.val * base.val = base.val ^ 2 by ring, ← pow_mul]
        congr 1
        omega
    · rename_i hcond
      obtain ⟨h1, h2⟩ := Prod.mk.injEq .. ▸ Option.some_injective _ h
      subst h1
      subst h2
      refine ⟨hw, ?_, rfl⟩
      rcases Decidable.not_and_iff_or_not.mp hcond with hodd | hz
      · omega
      · exact absurd hne (by simpa using hz)

/-- Second `checked_pow` loop: the result multiplies the accumulator by the
even power `base ^ (2 * (exp / 2))`. -/
theorem powLoop2_spec (exp : ℕ) :
    ∀ (acc base r : R), acc.wf → base.wf → powLoop2 acc base exp = some r →
      r.wf ∧ r.val = acc.val * base.val ^ (2 * (exp / 2)) := by
  induction exp using Nat.strong_induction_on with
  | _ exp ih =>
    intro acc base r haw hbw h
    rw [powLoop2] at h
    split at h
    · rename_i hgt
      cases hm : R.checked_mul base base with
      | none =>
        rw [hm] at h
        exact Option.noConfusion h
      | some bb =>
        rw [hm] at h
        dsimp only at h
        obtain ⟨hbbw, hbbv⟩ := checked_mul_spec hbw hbw hm
        by_cases hodd : exp / 2 % 2 = 1
        · rw [if_pos hodd] at h
          cases hm2 : R.checked_mul acc bb with
          | none =>
            rw [hm2] at h
            exact Option.noConfusion h
          | some acc2 =>
            rw [hm2] at h
            obtain ⟨ha2w, ha2v⟩ := checked_mul_spec haw hbbw hm2
            obtain ⟨hrw, hrv⟩ :=
              ih (exp / 2) (Nat.div_lt_self (by omega) one_lt_two) acc2 bb r ha2w hbbw h
            refine ⟨hrw, ?_⟩
            rw [hrv, ha2v, hbbv, show base.val * base.val = base.val ^ 2 by ring,
              ← pow_mul, mul_assoc, ← pow_add]
            have hee : 2 + 2 * (2 * (exp / 2 / 2)) = 2 * (exp / 2) := by omega
            rw [hee]
        · rw [if_neg hodd] at h
          obtain ⟨hrw, hrv⟩ :=
            ih (exp / 2) (Nat.div_lt_self (by omega) one_lt_two) acc bb r haw hbbw h
          refine ⟨hrw, ?_⟩
          rw [hrv, hbbv, show base.val * base.val = base.val ^ 2 by ring, ← pow_mul]
          have hee : 2 * (2 * (exp / 2 / 2)) = 2 * (exp / 2) := by omega
          rw [hee]
    · rename_i hle
      have hr : r = acc := (Option.some_injective _ h).symm
      subst hr
      refine ⟨haw, ?_⟩
      rw [show 2 * (exp / 2) = 0 by omega, pow_zero, mul_one]

/-- `num::traits::checked_pow` on a well-formed base computes the exact
power whenever it returns a result. -/
theorem checked_pow_spec {base : R} (hw : base.wf) (exp : ℕ) :
    ∀ r, R.checked_pow base exp = some r → r.wf ∧ r.val = base.val ^ exp := by
  intro r h
  rw [R.checked_pow] at h
  by_cases h0 : exp = 0
  · rw [if_pos h0] at h
    have hr : r = R.one := (Option.some_injective _ h).symm
    subst hr
    rw [h0, pow_zero]
    exact ⟨wf_one, val_one⟩
  · rw [if_neg h0] at h
    cases hl : powLoop1 base exp with
    | none =>
      rw [hl] at h
      exact Option.noConfusion h
    | some be =>
      obtain ⟨b, e⟩ := be
      rw [hl] at h
      dsimp only at h
      obtain ⟨hbw, he, hv⟩ := powLoop1_spec exp h0 base b e hw hl
      by_cases he1 : e = 1
      · rw [if_pos he1] at h
        have hr : r = b := (Option.some_injective _ h).symm
        subst hr
        refine ⟨hbw, ?_⟩
        rw [← hv, he1, pow_one]
      · rw [if_neg he1] at h
        obtain ⟨hrw, hrv⟩ := powLoop2_spec e b b r hbw hbw h
        refine ⟨hrw, ?_⟩
        rw [hrv, ← hv, show b.val * b.val ^ (2 * (e / 2)) = b.val ^ (1 + 2 * (e / 2)) by
          rw [pow_add, pow_one], show 1 + 2 * (e / 2) = e by omega]

/-- **C3 (amended).** `pow` follows the domain policy of the code: zero base
demands a positive exponent (result 0) and otherwise gives no result; a zero
exponent on a nonzero base gives 1; every other exponent is first truncated
toward zero by `to_i64` — so non-integer exponents are **not** rejected but
truncated (e.g. `pow(2, 1/2)` is `2^0 = 1`) — and the power is the checked
repeated-squaring power at the truncated exponent when that truncation is
non-negative, no result when it is negative (rational.rs lines 51–70). -/
theorem claim_C3 (a b : R) (ha : a.wf) (hb : b.wf) :
    (a.numer = 0 →
      (0 < b.numer → R.pow a b = some R.zero) ∧
      (b.numer ≤ 0 → R.pow a b = none)) ∧
    (a.numer ≠ 0 → b.numer = 0 → R.pow a b = some R.one) ∧
    (a.numer ≠ 0 → b.numer ≠ 0 → 0 ≤ b.numer.tdiv b.denom →
      R.pow a b = R.checked_pow a (b.numer.tdiv b.denom).toNat) ∧
    (a.numer ≠ 0 → b.numer ≠ 0 → b.numer.tdiv b.denom < 0 → R.pow a b = none) ∧
    (∀ n r, R.checked_pow a n = some r → r.wf ∧ r.val = a.val ^ n) := by
  have hbdp := hb.1
  have hbpos : b.isPositive ↔ 0 < b.numer := by
    rw [R.isPositive]
    omega
  refine ⟨?_, ?_, ?_, ?_, fun n r h => checked_pow_spec ha n r h⟩
  · intro h0
    constructor
    · intro hpos
      rw [R.pow, if_pos (show a.isZero from h0), if_pos (hbpos.mpr hpos)]
    · intro hnp
      rw [R.pow, if_pos (show a.isZero from h0),
        if_neg (fun hc => absurd (hbpos.mp hc) (by omega))]
  · intro hna h0
    rw [R.pow, if_neg (show ¬a.isZero from hna), if_pos (show b.isZero from h0)]
  · intro hna hnb hnn
    rw [R.pow, if_neg (show ¬a.isZero from hna), if_neg (show ¬b.isZero from hnb),
      R.toI64]
    dsimp only
    rw [if_pos hnn]
  · intro hna hnb hneg
    rw [R.pow, if_neg (show ¬a.isZero from hna), if_neg (show ¬b.isZero from hnb),
      R.toI64]
    dsimp only
    rw [if_neg (by omega)]

/-- Counterexample to C3 as stated: the claim says a non-integer exponent
yields no result, but `pow(2/1, 1/2)` truncates the exponent to 0 and
returns `1/1`. -/
theorem claim_C3_cex :
    (⟨2, 1⟩ : R).wf ∧ (⟨1, 2⟩ : R).wf ∧ R.pow ⟨2, 1⟩ ⟨1, 2⟩ = some R.one := by
  refine ⟨?_, ?_, ?_⟩
  · decide
  · decide
  · decide

/-- Witness for C3 at base `3/1` and exponent `2/1`. -/
theorem claim_C3_witness :
    ((⟨3, 1⟩ : R).wf ∧ (⟨2, 1⟩ : R).wf) ∧
    (((⟨3, 1⟩ : R).numer = 0 →
        (0 < (⟨2, 1⟩ : R).numer → R.pow ⟨3, 1⟩ ⟨2, 1⟩ = some R.zero) ∧
        ((⟨2, 1⟩ : R).numer ≤ 0 → R.pow ⟨3, 1⟩ ⟨2, 1⟩ = none)) ∧
     ((⟨3, 1⟩ : R).numer ≠ 0 → (⟨2, 1⟩ : R).numer = 0 →
        R.pow ⟨3, 1⟩ ⟨2, 1⟩ = some R.one) ∧
     ((⟨3, 1⟩ : R).numer ≠ 0 → (⟨2, 1⟩ : R).numer ≠ 0 →
        0 ≤ (⟨2, 1⟩ : R).numer.tdiv (⟨2, 1⟩ : R).denom →
        R.pow ⟨3, 1⟩ ⟨2, 1⟩ =
          R.checked_pow ⟨3, 1⟩ ((⟨2, 1⟩ : R).numer.tdiv (⟨2, 1⟩ : R).denom).toNat) ∧
     ((⟨3, 1⟩ : R).numer ≠ 0 → (⟨2, 1⟩ : R).numer ≠ 0 →
        (⟨2, 1⟩ : R).numer.tdiv (⟨2, 1⟩ : R).denom < 0 →
        R.pow ⟨3, 1⟩ ⟨2, 1⟩ = none) ∧
     (∀ n r, R.checked_pow ⟨3, 1⟩ n = some r →
        r.wf ∧ r.val = (⟨3, 1⟩ : R).val ^ n)) :=
  ⟨⟨by decide, by decide⟩, claim_C3 ⟨3, 1⟩ ⟨2, 1⟩ (by decide) (by decide)⟩

/-- **C4 (amended).** `sqrt` returns a result exactly when the reduced
numerator is **strictly positive** and numerator and denominator are both
perfect squares (the `is_positive` test excludes zero, so `sqrt(0/1)` yields
no result even though 0 is a non-negative perfect square; the denominator of
a reduced value is always positive); any result is the exact non-negative
rational root, whose square is the input (rational.rs lines 78–91). -/
theorem claim_C4 (a : R) (ha : a.wf) :
    ((R.sqrt a).isSome ↔
      0 < a.numer ∧ (∃ s : ℤ, s * s = a.numer) ∧ (∃ t : ℤ, t * t = a.denom)) ∧
    (∀ r, R.sqrt a = some r → r.wf ∧ 0 ≤ r.val ∧ r.val * r.val = a.val) := by
  obtain ⟨hadp, hag, hafn, hafd⟩ := ha
  constructor
  · rw [R.sqrt]
    by_cases hpos : 0 < a.numer ∧ 0 < a.denom
    · rw [if_pos hpos]
      by_cases hsq : Int.sqrt a.numer * Int.sqrt a.numer = a.numer ∧
          Int.sqrt a.denom * Int.sqrt a.denom = a.denom
      · rw [if_pos hsq]
        simp only [Option.isSome_some, true_iff]
        exact ⟨hpos.1, ⟨Int.sqrt a.numer, hsq.1⟩, ⟨Int.sqrt a.denom, hsq.2⟩⟩
      · rw [if_neg hsq]
        simp only [Option.isSome_none, Bool.false_eq_true, false_iff]
        rintro ⟨-, ⟨s, hs⟩, ⟨t, ht⟩⟩
        apply hsq
        constructor
        · rw [← hs, Int.sqrt_eq]
          exact_mod_cast Int.natAbs_mul_self (a := s)
        · rw [← ht, Int.sqrt_eq]
          exact_mod_cast Int.natAbs_mul_self (a := t)
    · rw [if_neg hpos]
      simp only [Option.isSome_none, Bool.false_eq_true, false_iff]
      rintro ⟨h1, -, -⟩
      exact hpos ⟨h1, hadp⟩
  · intro r h
    rw [R.sqrt] at h
    by_cases hpos : 0 < a.numer ∧ 0 < a.denom
    case neg =>
      rw [if_neg hpos] at h
      exact Option.noConfusion h
    rw [if_pos hpos] at h
    by_cases hsq : Int.sqrt a.numer * Int.sqrt a.numer = a.numer ∧
        Int.sqrt a.denom * Int.sqrt a.denom = a.denom
    case neg =>
      rw [if_neg hsq] at h
      exact Option.noConfusion h
    rw [if_pos hsq] at h
    have hr : r = Ratio.new (Int.sqrt a.numer) (Int.sqrt a.denom) :=
      (Option.some_injective _ h).symm
    have hs1pos : 0 < Int.sqrt a.numer := by
      by_contra hc
      push_neg at hc
      have h0 : Int.sqrt a.numer = 0 := le_antisymm hc (Int.sqrt_nonneg _)
      have := hsq.1
      rw [h0, mul_zero] at this
      omega
    have hs2pos : 0 < Int.sqrt a.denom := by
      by_contra hc
      push_neg at hc
      have h0 : Int.sqrt a.denom = 0 := le_antisymm hc (Int.sqrt_nonneg _)
      have := hsq.2
      rw [h0, mul_zero] at this
      omega
    have hs1le : Int.sqrt a.numer ≤ a.numer := by
      nlinarith [hsq.1, hs1pos]
    have hs2le : Int.sqrt a.denom ≤ a.denom := by
      nlinarith [hsq.2, hs2pos]
    have hf1 : fitsI64 (Int.sqrt a.numer) := by
      rw [fitsI64_iff] at hafn ⊢
      omega
    have hf2 : fitsI64 (Int.sqrt a.denom) := by
      rw [fitsI64_iff] at hafd ⊢
      omega
    obtain ⟨hwf, hval⟩ := Ratio.new_spec hs2pos hf1 hf2
    rw [hr]
    refine ⟨hwf, ?_, ?_⟩
    · rw [hval]
      apply div_nonneg
      · exact_mod_cast hs1pos.le
      · exact_mod_cast hs2pos.le
    · rw [hval, div_mul_div_comm]
      have e1 : ((Int.sqrt a.numer : ℤ) : ℚ) * ((Int.sqrt a.numer : ℤ) : ℚ) =
          ((a.numer : ℤ) : ℚ) := by exact_mod_cast hsq.1
      have e2 : ((Int.sqrt a.denom : ℤ) : ℚ) * ((Int.sqrt a.denom : ℤ) : ℚ) =
          ((a.denom : ℤ) : ℚ) := by exact_mod_cast hsq.2
      rw [e1, e2, R.val]

/-- Counterexample to C4 as stated: `0/1` has non-negative perfect-square
numerator and denominator, so the claim promises a result, but the code's
strict `is_positive` test makes `sqrt(0/1)` yield no result. -/
theorem claim_C4_cex :
    (⟨0, 1⟩ : R).wf ∧ (0 : ℤ) ≤ (⟨0, 1⟩ : R).numer ∧
    (∃ s : ℤ, s * s = (⟨0, 1⟩ : R).numer) ∧ (∃ t : ℤ, t * t = (⟨0, 1⟩ : R).denom) ∧
    R.sqrt ⟨0, 1⟩ = none :=
  ⟨by decide, by decide, ⟨0, by decide⟩, ⟨1, by decide⟩, by decide⟩

/-- Witness for C4 at `4/9` (root `2/3`). -/
theorem claim_C4_witness :
    (⟨4, 9⟩ : R).wf ∧
    (((R.sqrt ⟨4, 9⟩).isSome ↔
        0 < (⟨4, 9⟩ : R).numer ∧ (∃ s : ℤ, s * s = (⟨4, 9⟩ : R).numer) ∧
          (∃ t : ℤ, t * t = (⟨4, 9⟩ : R).denom)) ∧
     (∀ r, R.sqrt ⟨4, 9⟩ = some r →
        r.wf ∧ 0 ≤ r.val ∧ r.val * r.val = (⟨4, 9⟩ : R).val)) :=
  ⟨by decide, claim_C4 ⟨4, 9⟩ (by decide)⟩

/-- Witness for C2 at concrete values. -/
theorem claim_C2_witness :
    ((⟨1, 2⟩ : R) ∉ ([] : Store) →
      R.store ([] : Store) ⟨1, 2⟩ = (0, [⟨1, 2⟩])) ∧
    ((⟨1, 2⟩ : R) ∈ ([] : Store) →
      (R.store ([] : Store) ⟨1, 2⟩).2 = [] ∧
      R.load ([] : Store) (R.store ([] : Store) ⟨1, 2⟩).1 = some ⟨1, 2⟩) ∧
    (R.store (internAll ((R.store ([] : Store) ⟨1, 2⟩).2) []) ⟨1, 3⟩).1 ≠
      (R.store ([] : Store) ⟨1, 2⟩).1 :=
  claim_C2 [] ⟨1, 2⟩ ⟨1, 2⟩ ⟨1, 3⟩ [] (by decide)

end EgglogRat
